import Mathlib

/-!
Verification of the walnut block-structured pseudo-filesystem
(`src/lib.rs`, `src/util.rs`) against its natural-language specification.

The Rust code is shallowly embedded: bytes are `Nat` (values < 256 in real
runs, but nothing below depends on that), byte buffers are `List Nat`,
bitmaps are `List Bool`, and the mutable `FS` struct becomes explicit state
passing.  Machine integers (`u32`/`u64`) never overflow on the domains the
claims quantify over; where Rust would panic (failed `assert!`, `unwrap`,
out-of-bounds index) the embedding returns the distinguished error
`Err.abort`, kept separate from ordinary `anyhow` error returns.
-/

namespace Walnut

/-- Block size in bytes (`BLOCK_SIZE` in `lib.rs`). -/
def BLOCK_SIZE : Nat := 4096

/-- Data blocks per group (`BLOCKS_PER_GROUP = BLOCK_SIZE * 8`). -/
def BLOCKS_PER_GROUP : Nat := BLOCK_SIZE * 8

/-- Maximal number of bytes stored inline in an inode (`INODE_CAPACITY`). -/
def INODE_CAPACITY : Nat := 4047

/-- Maximal number of regions requested from one group (`INODE_MAX_REGION`). -/
def INODE_MAX_REGION : Nat := 500

/-- Block address of the root directory-index inode (`ROOT_INODE_INDEX`). -/
def ROOT_INODE_INDEX : Nat := 2

/-- `util::block_seek_position`: byte offset of a global block address. -/
def block_seek_position (block_index : Nat) : Nat := block_index * BLOCK_SIZE

/-- `util::encrypt`: XOR the buffer with the lookup table.  Rust zips
`bytes.iter_mut()` with the table, so only the first
`min (bytes.length) (table.length)` bytes are changed; the tail of the
buffer is left untouched.  Translated as the same pairwise walk the zip
performs. -/
def encrypt : List Nat → List Nat → List Nat
  | bytes, [] => bytes
  | [], _ :: _ => []
  | b :: bs, t :: ts => (b ^^^ t) :: encrypt bs ts

/-- `util::create_lookup_table`: byte `i` of the table is
`secret[i & (secret.len() - 1)]`.  For an empty secret the index
`i & (0 - 1)` underflows `usize` and the indexing panics, which the
embedding reports as `none`. -/
def create_lookup_table (secret : List Nat) (block_size : Nat) : Option (List Nat) :=
  if secret.isEmpty then none
  else some ((List.range block_size).map (fun i => secret.getD (i &&& (secret.length - 1)) 0))

theorem encrypt_nil (table : List Nat) : encrypt [] table = [] := by
  cases table <;> rfl

theorem encrypt_cons (b : Nat) (bs : List Nat) (t : Nat) (ts : List Nat) :
    encrypt (b :: bs) (t :: ts) = (b ^^^ t) :: encrypt bs ts := rfl

theorem encrypt_nil_table (bytes : List Nat) : encrypt bytes [] = bytes := by
  cases bytes <;> rfl

theorem encrypt_length (bytes : List Nat) : ∀ table : List Nat,
    (encrypt bytes table).length = bytes.length := by
  induction bytes with
  | nil => intro table; rw [encrypt_nil]
  | cons b bs ih =>
    intro table
    cases table with
    | nil => rfl
    | cons t ts =>
      rw [encrypt_cons, List.length_cons, List.length_cons, ih]

/-- XOR-ing twice with the same table restores the buffer, whatever the
table is. -/
theorem encrypt_encrypt (bytes table : List Nat) :
    encrypt (encrypt bytes table) table = bytes := by
  induction bytes generalizing table with
  | nil => rw [encrypt_nil, encrypt_nil]
  | cons b bs ih =>
    cases table with
    | nil => rw [encrypt_nil_table, encrypt_nil_table]
    | cons t ts =>
      rw [encrypt_cons, encrypt_cons, ih]
      simp [Nat.xor_assoc]

/-- C9: for every buffer `b` and secret `s`, encrypting twice with the
lookup table derived from `s` restores `b`.  (The involution in fact holds
for any table, which is how the proof goes.) -/
theorem C9_keystream_involution (b s t : List Nat) (block_size : Nat)
    (h : create_lookup_table s block_size = some t) :
    encrypt (encrypt b t) t = b :=
  encrypt_encrypt b t

/-- Witness for C9 at a concrete buffer and secret. -/
theorem C9_keystream_involution_witness :
    encrypt (encrypt [1, 2, 255] [3, 3, 3, 3]) [3, 3, 3, 3] = [1, 2, 255] :=
  C9_keystream_involution [1, 2, 255] [3] [3, 3, 3, 3] 4 (by decide)

/-- C10: for every non-empty secret, building the keystream table never
indexes out of bounds — `i &&& (len - 1) < len` for every `i` — and the
table has exactly `BLOCK_SIZE` entries with entry `i` equal to
`secret[i &&& (len - 1)]`.  Only the empty secret makes the construction
panic. -/
theorem C10_lookup_table_total (s : List Nat) (hs : s ≠ []) :
    ∃ t, create_lookup_table s BLOCK_SIZE = some t ∧
      t.length = BLOCK_SIZE ∧
      ∀ i, i < BLOCK_SIZE →
        (i &&& (s.length - 1)) < s.length ∧
        t.getD i 0 = s.getD (i &&& (s.length - 1)) 0 := by
  have hlen : 1 ≤ s.length := by
    cases s with
    | nil => simp at hs
    | cons a l => simp
  refine ⟨(List.range BLOCK_SIZE).map (fun i => s.getD (i &&& (s.length - 1)) 0), ?_, ?_, ?_⟩
  · simp [create_lookup_table, List.isEmpty_iff, hs]
  · simp
  · intro i hi
    constructor
    · have h1 : i &&& (s.length - 1) ≤ s.length - 1 := Nat.and_le_right
      omega
    · simp [List.getD_eq_getElem?_getD, List.getElem?_map, List.getElem?_range, hi]

/-- Witness for C10 at a concrete non-empty secret. -/
theorem C10_lookup_table_total_witness :
    ∃ t, create_lookup_table [5, 6] BLOCK_SIZE = some t ∧
      t.length = BLOCK_SIZE ∧
      ∀ i, i < BLOCK_SIZE →
        (i &&& ([5, 6].length - 1)) < [5, 6].length ∧
        t.getD i 0 = [5, 6].getD (i &&& ([5, 6].length - 1)) 0 :=
  C10_lookup_table_total [5, 6] (by decide)

/-- A block group: one allocation bitmap, one bit per data block
(`struct Group` in `lib.rs`; the `BitVec<u8, Lsb0>` becomes `List Bool`). -/
structure Group where
  block_bitmap : List Bool
deriving DecidableEq

/-- `Group::init`: a fresh all-clear bitmap of `BLOCK_SIZE * 8` bits. -/
def Group.init : Group := ⟨List.replicate (BLOCK_SIZE * 8) false⟩

/-- `Group::seek_position`: byte offset of group `group_index`'s bitmap
block inside the image. -/
def Group.seek_position (group_index : Nat) : Nat :=
  BLOCK_SIZE + group_index * (BLOCK_SIZE + BLOCKS_PER_GROUP * BLOCK_SIZE)

/-- `Group::create_public_address`: global block address of bit
`bitmap_index` of group `group_index`. -/
def Group.create_public_address (group_index bitmap_index : Nat) : Nat :=
  Group.seek_position group_index / BLOCK_SIZE + bitmap_index + 1

/-- `Group::translate_public_address`: recover `(group_index, bitmap_index)`
from a global block address.  Rust's `u32` subtraction is modelled by
truncated `Nat` subtraction; inputs below the claims' domain (`< 2`) would
wrap/panic in Rust and are irrelevant here. -/
def Group.translate_public_address (block_index : Nat) : Nat × Nat :=
  let bi := block_index - 1
  let n := BLOCKS_PER_GROUP + 1
  let group_index := bi / n
  let bitmap_index := if group_index = 0 then bi - 1 else bi % (group_index * n) - 1
  (group_index, bitmap_index)

/-- Closed form of the address map: `g * 32769 + k + 2`. -/
theorem create_public_address_eq (g k : Nat) :
    Group.create_public_address g k = g * (BLOCKS_PER_GROUP + 1) + k + 2 := by
  have hB : 0 < BLOCK_SIZE := by decide
  have : Group.seek_position g = BLOCK_SIZE * (1 + g * (BLOCKS_PER_GROUP + 1)) := by
    simp [Group.seek_position]; ring
  rw [Group.create_public_address, this, Nat.mul_div_cancel_left _ hB]
  ring

/-- The address map is injective on pairs with `k < BLOCKS_PER_GROUP + 1`. -/
theorem create_public_address_injOn (g k g' k' : Nat)
    (hk : k < BLOCKS_PER_GROUP + 1) (hk' : k' < BLOCKS_PER_GROUP + 1)
    (h : Group.create_public_address g k = Group.create_public_address g' k') :
    g = g' ∧ k = k' := by
  rw [create_public_address_eq, create_public_address_eq] at h
  constructor
  · by_contra hne
    rcases Nat.lt_or_ge g g' with hlt | hge
    · have : g * (BLOCKS_PER_GROUP + 1) + (BLOCKS_PER_GROUP + 1) ≤ g' * (BLOCKS_PER_GROUP + 1) :=
        by calc g * (BLOCKS_PER_GROUP + 1) + (BLOCKS_PER_GROUP + 1)
              = (g + 1) * (BLOCKS_PER_GROUP + 1) := by ring
          _ ≤ g' * (BLOCKS_PER_GROUP + 1) := Nat.mul_le_mul_right _ hlt
      omega
    · have hlt : g' < g := lt_of_le_of_ne hge (fun e => hne e.symm)
      have : g' * (BLOCKS_PER_GROUP + 1) + (BLOCKS_PER_GROUP + 1) ≤ g * (BLOCKS_PER_GROUP + 1) :=
        by calc g' * (BLOCKS_PER_GROUP + 1) + (BLOCKS_PER_GROUP + 1)
              = (g' + 1) * (BLOCKS_PER_GROUP + 1) := by ring
          _ ≤ g * (BLOCKS_PER_GROUP + 1) := Nat.mul_le_mul_right _ hlt
      omega
  · have : g = g' := by
      by_contra hne
      rcases Nat.lt_or_ge g g' with hlt | hge
      · have : g * (BLOCKS_PER_GROUP + 1) + (BLOCKS_PER_GROUP + 1) ≤ g' * (BLOCKS_PER_GROUP + 1) :=
          by calc g * (BLOCKS_PER_GROUP + 1) + (BLOCKS_PER_GROUP + 1)
                = (g + 1) * (BLOCKS_PER_GROUP + 1) := by ring
            _ ≤ g' * (BLOCKS_PER_GROUP + 1) := Nat.mul_le_mul_right _ hlt
        omega
      · have hlt : g' < g := lt_of_le_of_ne hge (fun e => hne e.symm)
        have : g' * (BLOCKS_PER_GROUP + 1) + (BLOCKS_PER_GROUP + 1) ≤ g * (BLOCKS_PER_GROUP + 1) :=
          by calc g' * (BLOCKS_PER_GROUP + 1) + (BLOCKS_PER_GROUP + 1)
                = (g' + 1) * (BLOCKS_PER_GROUP + 1) := by ring
            _ ≤ g * (BLOCKS_PER_GROUP + 1) := Nat.mul_le_mul_right _ hlt
        omega
    subst this
    omega

/-- `translate_public_address` inverts `create_public_address` for every
group index and every bitmap index below `BLOCKS_PER_GROUP`, including the
`block_index % (group_index * n) - 1` branch used when `group_index > 0`. -/
theorem translate_create_eq (g k : Nat) (hk : k < BLOCKS_PER_GROUP) :
    Group.translate_public_address (Group.create_public_address g k) = (g, k) := by
  have hG : BLOCKS_PER_GROUP = 32768 := by decide
  rw [create_public_address_eq]
  unfold Group.translate_public_address
  rw [hG] at hk ⊢
  have hk1 : k + 1 < 32769 := by omega
  have hbi : g * (32768 + 1) + k + 2 - 1 = g * 32769 + (k + 1) := by omega
  simp only [hbi]
  have hdiv : (g * 32769 + (k + 1)) / 32769 = g := by
    rw [Nat.add_comm, Nat.add_mul_div_right _ _ (by norm_num : (0:Nat) < 32769),
      Nat.div_eq_of_lt hk1]
    omega
  rw [hdiv]
  cases Nat.eq_zero_or_pos g with
  | inl hg =>
    subst hg
    simp
  | inr hg =>
    have hgne : g ≠ 0 := Nat.pos_iff_ne_zero.mp hg
    have hmod : (g * 32769 + (k + 1)) % (g * 32769) = k + 1 := by
      rw [Nat.add_mod_left]
      exact Nat.mod_eq_of_lt (lt_of_lt_of_le hk1 (by
        calc (32769 : Nat) = 1 * 32769 := by ring
        _ ≤ g * 32769 := Nat.mul_le_mul_right _ hg))
    simp [hgne, hmod]

/-- C2: for every `g < 20` and `k < BLOCKS_PER_GROUP`,
`translate_public_address (create_public_address g k) = (g, k)`. -/
theorem C2_address_roundtrip (g k : Nat) (hg : g < 20) (hk : k < BLOCKS_PER_GROUP) :
    Group.translate_public_address (Group.create_public_address g k) = (g, k) :=
  translate_create_eq g k hk

/-- Witness for C2 at a concrete pair, exercising the `group_index > 0`
branch. -/
theorem C2_address_roundtrip_witness :
    Group.translate_public_address (Group.create_public_address 3 12345) = (3, 12345) :=
  C2_address_roundtrip 3 12345 (by decide) (by decide)

/-- `Group::free_data_blocks` / `count_zeros` on the bitmap. -/
def Group.count_zeros (g : Group) : Nat := g.block_bitmap.count false

/-- `Group::total_data_blocks`: the bitmap length. -/
def Group.total_data_blocks (g : Group) : Nat := g.block_bitmap.length

/-- `Group::release_one`: clear one bit. -/
def Group.release_one (g : Group) (bitmap_index : Nat) : Group :=
  ⟨g.block_bitmap.set bitmap_index false⟩

/-- `Group::release_data_region`: clear bits
`bitmap_index .. bitmap_index + length`. -/
def Group.release_data_region (g : Group) (bitmap_index length : Nat) : Group :=
  ⟨(List.range' bitmap_index length).foldl (fun bm i => bm.set i false) g.block_bitmap⟩

/-- `Group::force_allocate_at`: set one bit unconditionally. -/
def Group.force_allocate_at (g : Group) (bitmap_index : Nat) : Group :=
  ⟨g.block_bitmap.set bitmap_index true⟩

/-- `Group::allocate_one`: claim the lowest clear bit and return its global
address together with the updated group. -/
def Group.allocate_one (g : Group) (group_index : Nat) : Option (Nat × Group) :=
  match g.block_bitmap.findIdx? (fun b => !b) with
  | some bitmap_index =>
    some (Group.create_public_address group_index bitmap_index,
      ⟨g.block_bitmap.set bitmap_index true⟩)
  | none => none

/-- Prepend a processed bit to the bitmap component of a loop result. -/
def consFst (b : Bool) (r : List Bool × List (Nat × Nat) × Nat) :
    List Bool × List (Nat × Nat) × Nat :=
  (b :: r.1, r.2)

/-- Extend the open run by one block, or open a fresh run of length one at
bitmap index `idx` (the `region` update of the clear-bit branch). -/
def openExtend (group_index idx : Nat) : Option (Nat × Nat) → Option (Nat × Nat)
  | some (s, l) => some (s, l + 1)
  | none => some (Group.create_public_address group_index idx, 1)

/-- The scan loop of `Group::allocate_region`.  `idx` is the bitmap index of
the head of `bits`; `region` is the currently open run (global start
address, length); `regions` the closed runs so far.  Returns the rewritten
bitmap suffix, the closed runs, and the number of blocks still wanted.
Mirrors the Rust iterator loop including the want-exhausted break, the
`max_regions` break after closing a run, and the last-element cleanup
(deferred here to the `[]` case, which is reached exactly when the loop ran
off the end of the bitmap). -/
def Group.allocRegionLoop (group_index : Nat) (bits : List Bool) (idx want max_regions : Nat)
    (region : Option (Nat × Nat)) (regions : List (Nat × Nat)) :
    List Bool × List (Nat × Nat) × Nat :=
  match bits with
  | [] => ([], regions ++ region.toList, want)
  | b :: rest =>
    if want = 0 then (b :: rest, regions ++ region.toList, want)
    else if b = false then
      consFst true (Group.allocRegionLoop group_index rest (idx + 1) (want - 1) max_regions
        (openExtend group_index idx region) regions)
    else
      match region with
      | some reg =>
        if (regions ++ [reg]).length = max_regions then (b :: rest, regions ++ [reg], want)
        else
          consFst b (Group.allocRegionLoop group_index rest (idx + 1) want max_regions none
            (regions ++ [reg]))
      | none =>
        consFst b (Group.allocRegionLoop group_index rest (idx + 1) want max_regions none regions)

/-- `Group::allocate_region`: claim up to `blocks_to_allocate` clear bits in
one left-to-right scan, closing maximal runs.  Returns the updated group,
the claimed `(start_address, length)` runs, and the number of blocks still
to allocate. -/
def Group.allocate_region (g : Group) (group_index blocks_to_allocate max_regions : Nat) :
    Group × List (Nat × Nat) × Nat :=
  let r := Group.allocRegionLoop group_index g.block_bitmap 0 blocks_to_allocate max_regions none []
  (⟨r.1⟩, r.2)

example :
    Group.allocate_region ⟨[false, false, true, false, true, false]⟩ 0 4 10 =
      (⟨[true, true, true, true, true, true]⟩, [(2, 2), (5, 1), (7, 1)], 0) := by decide

example :
    Group.allocate_region ⟨[false, false, true, false, false, false]⟩ 0 3 10 =
      (⟨[true, true, true, true, false, false]⟩, [(2, 2), (5, 1)], 0) := by decide

example :
    Group.allocate_region ⟨[false, true, false, true, false]⟩ 0 5 2 =
      (⟨[true, true, true, true, false]⟩, [(2, 1), (4, 1)], 3) := by decide

example :
    Group.allocate_region ⟨[false, true, false]⟩ 0 2 0 =
      (⟨[true, true, true]⟩, [(2, 1), (4, 1)], 0) := by decide

example :
    Group.allocate_region ⟨[true, true]⟩ 0 3 10 = (⟨[true, true]⟩, [], 3) := by decide

example :
    Group.allocate_region ⟨[false, false, false]⟩ 0 2 10 =
      (⟨[true, true, false]⟩, [(2, 2)], 0) := by decide

/-- Global addresses of the blocks belonging to one run. -/
def regionBlocks (r : Nat × Nat) : List Nat := List.range' r.1 r.2

/-- Global addresses of the blocks covered by a list of runs, in order. -/
def blocksOf (rs : List (Nat × Nat)) : List Nat := (rs.map regionBlocks).join

/-- Blocks of the optional open run. -/
def optRegionBlocks : Option (Nat × Nat) → List Nat
  | some r => regionBlocks r
  | none => []

theorem blocksOf_nil : blocksOf [] = [] := rfl

theorem blocksOf_append (xs ys : List (Nat × Nat)) :
    blocksOf (xs ++ ys) = blocksOf xs ++ blocksOf ys := by
  simp [blocksOf]

theorem blocksOf_singleton (r : Nat × Nat) : blocksOf [r] = regionBlocks r := by
  simp [blocksOf]

theorem blocksOf_cons (r : Nat × Nat) (rs : List (Nat × Nat)) :
    blocksOf (r :: rs) = regionBlocks r ++ blocksOf rs := by
  simp [blocksOf]

theorem blocksOf_toList (region : Option (Nat × Nat)) :
    blocksOf region.toList = optRegionBlocks region := by
  cases region <;> simp [blocksOf, optRegionBlocks]

/-- Global addresses of the bitmap positions that changed from clear to
set between two bitmaps, scanning from bitmap index `idx`. -/
def claimedAddrs (group_index idx : Nat) : List Bool → List Bool → List Nat
  | b :: bs, b' :: bs' =>
    if b = false ∧ b' = true then
      Group.create_public_address group_index idx :: claimedAddrs group_index (idx + 1) bs bs'
    else claimedAddrs group_index (idx + 1) bs bs'
  | _, _ => []

theorem claimedAddrs_nil_left (gi idx : Nat) (bs' : List Bool) :
    claimedAddrs gi idx [] bs' = [] := rfl

theorem claimedAddrs_nil_right (gi idx : Nat) (b : Bool) (bs : List Bool) :
    claimedAddrs gi idx (b :: bs) [] = [] := rfl

theorem claimedAddrs_cons (gi idx : Nat) (b b' : Bool) (bs bs' : List Bool) :
    claimedAddrs gi idx (b :: bs) (b' :: bs') =
      if b = false ∧ b' = true then
        Group.create_public_address gi idx :: claimedAddrs gi (idx + 1) bs bs'
      else claimedAddrs gi (idx + 1) bs bs' := rfl

theorem claimedAddrs_self (gi : Nat) (bits : List Bool) :
    ∀ idx, claimedAddrs gi idx bits bits = [] := by
  induction bits with
  | nil => intro idx; rfl
  | cons b bs ih =>
    intro idx
    rw [claimedAddrs_cons]
    have : ¬(b = false ∧ b = true) := by
      rintro ⟨h1, h2⟩; rw [h1] at h2; cases h2
    rw [if_neg this, ih]

theorem create_public_address_succ (gi idx : Nat) :
    Group.create_public_address gi (idx + 1) = Group.create_public_address gi idx + 1 := by
  rw [create_public_address_eq, create_public_address_eq]
  omega

/-- Bounds and strict sortedness of the claimed-address list. -/
theorem claimedAddrs_bounds_sorted (gi : Nat) (bits : List Bool) :
    ∀ idx bits',
      (∀ a ∈ claimedAddrs gi idx bits bits',
        Group.create_public_address gi idx ≤ a ∧
          a < Group.create_public_address gi idx + bits.length) ∧
      List.Sorted (· < ·) (claimedAddrs gi idx bits bits') := by
  induction bits with
  | nil => intro idx bits'; simp [claimedAddrs_nil_left]
  | cons b bs ih =>
    intro idx bits'
    cases bits' with
    | nil => simp [claimedAddrs_nil_right]
    | cons b' bs' =>
      obtain ⟨ihb, ihs⟩ := ih (idx + 1) bs'
      rw [claimedAddrs_cons]
      by_cases hc : b = false ∧ b' = true
      · rw [if_pos hc]
        refine ⟨?_, ?_⟩
        · intro a ha
          rcases List.mem_cons.mp ha with h | h
          · subst h
            constructor
            · exact le_refl _
            · simp
          · obtain ⟨h1, h2⟩ := ihb a h
            rw [create_public_address_succ] at h1 h2
            constructor
            · omega
            · simpa [Nat.add_comm, Nat.add_assoc, Nat.add_left_comm] using
                (by omega : a < Group.create_public_address gi idx + (bs.length + 1))
        · refine List.sorted_cons.mpr ⟨?_, ihs⟩
          intro a ha
          have := (ihb a ha).1
          rw [create_public_address_succ] at this
          omega
      · rw [if_neg hc]
        refine ⟨?_, ihs⟩
        intro a ha
        obtain ⟨h1, h2⟩ := ihb a ha
        rw [create_public_address_succ] at h1 h2
        constructor
        · omega
        · simp only [List.length_cons]
          omega

/-- Master specification of the `allocate_region` scan loop.  Relative to a
well-formed open run (`hreg`), the loop
(1) preserves the bitmap length,
(2) never clears a set bit,
(3) appends to `regions` a list of new runs whose blocks are exactly the
open run's blocks followed by the addresses of the bits it flips from clear
to set,
(4) returns a remainder that accounts exactly for the claimed bits, and
(5) respects the `max_regions` budget whenever `regions` is strictly below
it. -/
theorem allocRegionLoop_spec (gi maxr : Nat) (bits : List Bool) :
    ∀ (idx want : Nat) (region : Option (Nat × Nat)) (regions : List (Nat × Nat))
      (bits' : List Bool) (regs' : List (Nat × Nat)) (rem : Nat),
      Group.allocRegionLoop gi bits idx want maxr region regions = (bits', regs', rem) →
      (∀ s l, region = some (s, l) → s + l = Group.create_public_address gi idx ∧ 1 ≤ l) →
      bits'.length = bits.length ∧
      (∀ j (hj : j < bits.length) (hj' : j < bits'.length),
        bits[j] = true → bits'[j] = true) ∧
      (∃ new, regs' = regions ++ new ∧
        blocksOf new = optRegionBlocks region ++ claimedAddrs gi idx bits bits') ∧
      rem ≤ want ∧
      (claimedAddrs gi idx bits bits').length + rem = want ∧
      (regions.length < maxr → regs'.length ≤ maxr) := by
  induction bits with
  | nil =>
    intro idx want region regions bits' regs' rem heq hreg
    simp only [Group.allocRegionLoop, Prod.mk.injEq] at heq
    obtain ⟨rfl, rfl, rfl⟩ := heq
    refine ⟨rfl, ?_, ⟨region.toList, rfl, ?_⟩, le_refl _, ?_, ?_⟩
    · intro j hj; simp at hj
    · rw [blocksOf_toList, claimedAddrs_nil_left, List.append_nil]
    · rw [claimedAddrs_nil_left]; simp
    · intro h
      cases region <;> simp <;> omega
  | cons b rest ih =>
    intro idx want region regions bits' regs' rem heq hreg
    simp only [Group.allocRegionLoop] at heq
    by_cases hw : want = 0
    · rw [if_pos hw] at heq
      simp only [Prod.mk.injEq] at heq
      obtain ⟨rfl, rfl, rfl⟩ := heq
      refine ⟨rfl, ?_, ⟨region.toList, rfl, ?_⟩, le_refl _, ?_, ?_⟩
      · intro j hj hj' h; exact h
      · rw [blocksOf_toList, claimedAddrs_self, List.append_nil]
      · rw [claimedAddrs_self]; simp
      · intro h
        cases region <;> simp <;> omega
    · rw [if_neg hw] at heq
      by_cases hb : b = false
      · -- clear bit: claim it, extend or open the run, recurse
        rw [if_pos hb] at heq
        subst hb
        rcases hrr : Group.allocRegionLoop gi rest (idx + 1) (want - 1) maxr
            (openExtend gi idx region) regions with ⟨rbits, rregs, rrem⟩
        rw [hrr] at heq
        simp only [consFst] at heq
        injection heq with h1 h2
        injection h2 with h2a h2b
        subst h1; subst h2a; subst h2b
        have hreg' : ∀ s l, openExtend gi idx region = some (s, l) →
            s + l = Group.create_public_address gi (idx + 1) ∧ 1 ≤ l := by
          intro s l hsl
          rw [create_public_address_succ]
          cases region with
          | some r =>
            obtain ⟨hs, hl⟩ := hreg r.1 r.2 (by simp)
            simp only [openExtend] at hsl
            obtain ⟨rfl, rfl⟩ := Prod.mk.injEq .. ▸ Option.some.injEq .. ▸ hsl
            omega
          | none =>
            simp only [openExtend] at hsl
            obtain ⟨rfl, rfl⟩ := Prod.mk.injEq .. ▸ Option.some.injEq .. ▸ hsl
            omega
        obtain ⟨l1, l2, ⟨new, hnew, hblocks⟩, l4, l5, l6⟩ :=
          ih (idx + 1) (want - 1) (openExtend gi idx region) regions rbits rregs rrem hrr hreg'
        have hclaim : claimedAddrs gi idx (false :: rest) (true :: rbits) =
            Group.create_public_address gi idx :: claimedAddrs gi (idx + 1) rest rbits := by
          rw [claimedAddrs_cons, if_pos ⟨rfl, rfl⟩]
        refine ⟨by simp [l1], ?_, ⟨new, hnew, ?_⟩, ?_, ?_, l6⟩
        · intro j hj hj' h
          cases j with
          | zero => simp at h
          | succ j =>
            simp only [List.getElem_cons_succ] at h ⊢
            exact l2 j (by simpa using hj) (by simpa using hj') h
        · rw [hclaim, hblocks]
          cases region with
          | some r =>
            obtain ⟨hs, hl⟩ := hreg r.1 r.2 (by simp)
            simp only [openExtend, optRegionBlocks, regionBlocks]
            rw [List.range'_1_concat, hs]
            simp
          | none =>
            simp only [openExtend, optRegionBlocks, regionBlocks]
            rw [List.range'_one]
            simp
        · omega
        · rw [hclaim]
          simp only [List.length_cons]
          omega
      · -- set bit
        have hbt : b = true := by
          cases b
          · exact absurd rfl hb
          · rfl
        subst hbt
        rw [if_neg hb] at heq
        cases region with
        | some reg =>
          dsimp only at heq
          by_cases hlen : (regions ++ [reg]).length = maxr
          · -- budget reached: close the run and stop
            rw [if_pos hlen] at heq
            simp only [Prod.mk.injEq] at heq
            obtain ⟨rfl, rfl, rfl⟩ := heq
            refine ⟨rfl, ?_, ⟨[reg], rfl, ?_⟩, le_refl _, ?_, ?_⟩
            · intro j hj hj' h; exact h
            · rw [blocksOf_singleton, claimedAddrs_self, List.append_nil]
              rfl
            · rw [claimedAddrs_self]; simp
            · intro h; omega
          · -- close the run and keep scanning
            rw [if_neg hlen] at heq
            rcases hrr : Group.allocRegionLoop gi rest (idx + 1) want maxr none
                (regions ++ [reg]) with ⟨rbits, rregs, rrem⟩
            rw [hrr] at heq
            simp only [consFst] at heq
            injection heq with h1 h2
            injection h2 with h2a h2b
            subst h1; subst h2a; subst h2b
            obtain ⟨l1, l2, ⟨new, hnew, hblocks⟩, l4, l5, l6⟩ :=
              ih (idx + 1) want none (regions ++ [reg]) rbits rregs rrem hrr
                (by intro s l h; cases h)
            have hclaim : claimedAddrs gi idx (true :: rest) (true :: rbits) =
                claimedAddrs gi (idx + 1) rest rbits := by
              rw [claimedAddrs_cons, if_neg]
              rintro ⟨h1, _⟩; cases h1
            refine ⟨by simp [l1], ?_, ⟨reg :: new, ?_, ?_⟩, l4, ?_, ?_⟩
            · intro j hj hj' h
              cases j with
              | zero => simp
              | succ j =>
                simp only [List.getElem_cons_succ] at h ⊢
                exact l2 j (by simpa using hj) (by simpa using hj') h
            · rw [hnew, List.append_assoc]
              rfl
            · rw [blocksOf_cons, hblocks, hclaim]
              simp [optRegionBlocks]
            · rw [hclaim]; exact l5
            · intro h
              apply l6
              simp only [List.length_append, List.length_cons, List.length_nil] at hlen ⊢
              omega
        | none =>
          dsimp only at heq
          rcases hrr : Group.allocRegionLoop gi rest (idx + 1) want maxr none regions
            with ⟨rbits, rregs, rrem⟩
          rw [hrr] at heq
          simp only [consFst] at heq
          injection heq with h1 h2
          injection h2 with h2a h2b
          subst h1; subst h2a; subst h2b
          obtain ⟨l1, l2, ⟨new, hnew, hblocks⟩, l4, l5, l6⟩ :=
            ih (idx + 1) want none regions rbits rregs rrem hrr (by intro s l h; cases h)
          have hclaim : claimedAddrs gi idx (true :: rest) (true :: rbits) =
              claimedAddrs gi (idx + 1) rest rbits := by
            rw [claimedAddrs_cons, if_neg]
            rintro ⟨h1, _⟩; cases h1
          refine ⟨by simp [l1], ?_, ⟨new, hnew, ?_⟩, l4, ?_, l6⟩
          · intro j hj hj' h
            cases j with
            | zero => simp
            | succ j =>
              simp only [List.getElem_cons_succ] at h ⊢
              exact l2 j (by simpa using hj) (by simpa using hj') h
          · rw [hblocks, hclaim]
          · rw [hclaim]; exact l5

/-- C8 (amended: `max_regions ≥ 1`): `allocate_region` preserves the bitmap
length and never clears a set bit; the returned ranges cover exactly the
addresses of the bits flipped from clear to set (`blocksOf rs =
claimedAddrs …`, which packages "each claimed bit previously clear and set
afterwards" and "the ranges cover exactly the claimed bits"); the claimed
block count is exactly `want - rem`; the concatenated range blocks are
strictly increasing (hence the ranges are pairwise disjoint and claimed in
strictly increasing bitmap order); and at most `max_regions` ranges are
returned.  The original claim's "every max_regions bound" fails at
`max_regions = 0` (see the counterexample). -/
theorem C8_allocate_region_spec (g : Group) (gi want maxr : Nat) (hmax : 1 ≤ maxr)
    (g' : Group) (rs : List (Nat × Nat)) (rem : Nat)
    (h : g.allocate_region gi want maxr = (g', rs, rem)) :
    g'.block_bitmap.length = g.block_bitmap.length ∧
    (∀ j (hj : j < g.block_bitmap.length) (hj' : j < g'.block_bitmap.length),
      g.block_bitmap[j] = true → g'.block_bitmap[j] = true) ∧
    blocksOf rs = claimedAddrs gi 0 g.block_bitmap g'.block_bitmap ∧
    rem ≤ want ∧
    (blocksOf rs).length + rem = want ∧
    List.Sorted (· < ·) (blocksOf rs) ∧
    rs.length ≤ maxr := by
  rcases hrr : Group.allocRegionLoop gi g.block_bitmap 0 want maxr none []
    with ⟨rbits, rregs, rrem⟩
  simp only [Group.allocate_region, hrr] at h
  obtain ⟨rfl, rfl, rfl⟩ := h
  obtain ⟨l1, l2, ⟨new, hnew, hblocks⟩, l4, l5, l6⟩ :=
    allocRegionLoop_spec gi maxr g.block_bitmap 0 want none [] rbits rs rem hrr
      (by intro s l hc; cases hc)
  rw [List.nil_append] at hnew
  subst hnew
  rw [optRegionBlocks, List.nil_append] at hblocks
  refine ⟨l1, l2, hblocks, l4, ?_, ?_, l6 (by simpa using hmax)⟩
  · rw [hblocks]; exact l5
  · rw [hblocks]
    exact (claimedAddrs_bounds_sorted gi g.block_bitmap 0 rbits).2

/-- Witness for C8 at a concrete group, want and budget. -/
theorem C8_allocate_region_spec_witness :
    (1 ≤ 5 ∧ Group.allocate_region ⟨[false, true, false]⟩ 0 2 5 =
      ((⟨[true, true, true]⟩ : Group), [(2, 1), (4, 1)], 0)) ∧
    ((⟨[true, true, true]⟩ : Group).block_bitmap.length =
        (⟨[false, true, false]⟩ : Group).block_bitmap.length ∧
      (∀ j (hj : j < (⟨[false, true, false]⟩ : Group).block_bitmap.length)
        (hj' : j < (⟨[true, true, true]⟩ : Group).block_bitmap.length),
        (⟨[false, true, false]⟩ : Group).block_bitmap[j] = true →
          (⟨[true, true, true]⟩ : Group).block_bitmap[j] = true) ∧
      blocksOf [(2, 1), (4, 1)] =
        claimedAddrs 0 0 (⟨[false, true, false]⟩ : Group).block_bitmap
          (⟨[true, true, true]⟩ : Group).block_bitmap ∧
      0 ≤ 2 ∧
      (blocksOf [(2, 1), (4, 1)]).length + 0 = 2 ∧
      List.Sorted (· < ·) (blocksOf [(2, 1), (4, 1)]) ∧
      ([(2, 1), (4, 1)] : List (Nat × Nat)).length ≤ 5) :=
  ⟨⟨by decide, by decide⟩,
    C8_allocate_region_spec ⟨[false, true, false]⟩ 0 2 5 (by decide) ⟨[true, true, true]⟩
      [(2, 1), (4, 1)] 0 (by decide)⟩

/-- C8 counterexample: with `max_regions = 0` the budget check
(`regions.len() == max_regions`, tested only after a push) never fires, so
the call returns 2 ranges — more than the `max_regions` bound the claim
promises for every bound. -/
theorem C8_allocate_region_counterexample :
    (Group.allocate_region ⟨[false, true, false]⟩ 0 2 0).2.1.length = 2 ∧
    ¬((Group.allocate_region ⟨[false, true, false]⟩ 0 2 0).2.1.length ≤ 0) := by
  decide

/-- One round of CRC32 (IEEE, reflected polynomial), as computed by the
`crc32fast` crate used in `util::calculate_checksum`. -/
def crc32Round (c : Nat) : Nat :=
  if c % 2 = 1 then (c / 2) ^^^ 0xEDB88320 else c / 2

/-- Fold one byte into the CRC32 state. -/
def crc32Byte (crc byte : Nat) : Nat :=
  (List.range 8).foldl (fun c _ => crc32Round c) (crc ^^^ byte)

/-- CRC32 of a byte sequence (`util::Checksum` / `calculate_checksum`). -/
def crc32 (bytes : List Nat) : Nat :=
  (bytes.foldl crc32Byte 0xFFFFFFFF) ^^^ 0xFFFFFFFF

/-- `k` little-endian bytes of `n` (bincode's fixed-width integer
encoding). -/
def natLE : Nat → Nat → List Nat
  | 0, _ => []
  | k + 1, n => n % 256 :: natLE k (n / 256)

/-- Read back a `k`-byte little-endian integer. -/
def readLE : Nat → List Nat → Option (Nat × List Nat)
  | 0, bs => some (0, bs)
  | _ + 1, [] => none
  | k + 1, b :: bs =>
    match readLE k bs with
    | some (n, rest) => some (b + 256 * n, rest)
    | none => none

theorem natLE_length (k n : Nat) : (natLE k n).length = k := by
  induction k generalizing n with
  | zero => rfl
  | succ k ih => simp [natLE, ih]

theorem readLE_natLE (k : Nat) : ∀ (n : Nat) (rest : List Nat), n < 256 ^ k →
    readLE k (natLE k n ++ rest) = some (n, rest) := by
  induction k with
  | zero =>
    intro n rest h
    simp only [pow_zero, Nat.lt_one_iff] at h
    subst h
    rfl
  | succ k ih =>
    intro n rest h
    have hdiv : n / 256 < 256 ^ k := by
      rw [Nat.div_lt_iff_lt_mul (by norm_num)]
      calc n < 256 ^ (k + 1) := h
        _ = 256 ^ k * 256 := by rw [pow_succ]
    simp only [natLE, List.cons_append, readLE, List.append_eq,
      ih (n / 256) rest hdiv]
    rw [Nat.mod_add_div]

/-- Model stand-in for bincode's serialization of one ordered-map entry:
an 8-byte length prefix, the key bytes, a 4-byte value. -/
def serializeEntry (e : List Nat × Nat) : List Nat :=
  natLE 8 e.1.length ++ e.1 ++ natLE 4 e.2

/-- Serialize the entries of an ordered map (in list order). -/
def serializeEntries (es : List (List Nat × Nat)) : List Nat :=
  (es.map serializeEntry).flatten

theorem serializeEntries_cons (e : List Nat × Nat) (es : List (List Nat × Nat)) :
    serializeEntries (e :: es) = serializeEntry e ++ serializeEntries es := by
  simp [serializeEntries]

/-- Model stand-in for the bincode serialization of a `BTreeMap`-backed
record (`Directory` / `DirectoryIndex`): an 8-byte entry count, the
entries, and the record's 4-byte checksum field. -/
def serializeMap (es : List (List Nat × Nat)) (checksum : Nat) : List Nat :=
  natLE 8 es.length ++ serializeEntries es ++ natLE 4 checksum

/-- Decode `count` map entries, returning them and the remaining bytes. -/
def decodeEntries : Nat → List Nat → Option (List (List Nat × Nat) × List Nat)
  | 0, bs => some ([], bs)
  | c + 1, bs =>
    match readLE 8 bs with
    | none => none
    | some (klen, bs1) =>
      if klen ≤ bs1.length then
        match readLE 4 (bs1.drop klen) with
        | none => none
        | some (v, bs3) =>
          match decodeEntries c bs3 with
          | none => none
          | some (es, bs4) => some ((bs1.take klen, v) :: es, bs4)
      else none

/-- Decode a serialized map record (entries plus checksum field); trailing
bytes are ignored, as `bincode::deserialize` does for these records. -/
def decodeMap (bs : List Nat) : Option (List (List Nat × Nat) × Nat) :=
  match readLE 8 bs with
  | none => none
  | some (count, bs1) =>
    match decodeEntries count bs1 with
    | none => none
    | some (es, bs2) =>
      match readLE 4 bs2 with
      | none => none
      | some (c, _) => some (es, c)

/-- Key lengths and values small enough for their fixed-width prefixes. -/
def entriesBounded (es : List (List Nat × Nat)) : Prop :=
  ∀ e ∈ es, e.1.length < 256 ^ 8 ∧ e.2 < 256 ^ 4

instance (es : List (List Nat × Nat)) : Decidable (entriesBounded es) := by
  unfold entriesBounded
  infer_instance

theorem decodeEntries_serializeEntries (es : List (List Nat × Nat)) :
    ∀ rest, entriesBounded es →
      decodeEntries es.length (serializeEntries es ++ rest) = some (es, rest) := by
  induction es with
  | nil => intro rest _; rfl
  | cons e es ih =>
    intro rest hb
    obtain ⟨hk, hv⟩ := hb e (List.mem_cons_self e es)
    have hb' : entriesBounded es := fun x hx => hb x (List.mem_cons_of_mem e hx)
    rw [serializeEntries_cons, serializeEntry]
    simp only [List.length_cons, decodeEntries, List.append_assoc,
      readLE_natLE 8 e.1.length _ hk]
    have hguard : e.1.length ≤ (e.1 ++ (natLE 4 e.2 ++ (serializeEntries es ++ rest))).length := by
      simp
    rw [if_pos hguard, List.drop_left, List.take_left]
    simp only [readLE_natLE 4 e.2 _ hv, ih rest hb']

theorem decodeMap_serializeMap (es : List (List Nat × Nat)) (checksum : Nat)
    (hc : es.length < 256 ^ 8) (hcs : checksum < 256 ^ 4) (hb : entriesBounded es) :
    decodeMap (serializeMap es checksum) = some (es, checksum) := by
  have h4 : natLE 4 checksum = natLE 4 checksum ++ [] := by simp
  simp only [decodeMap, serializeMap, List.append_assoc,
    readLE_natLE 8 es.length _ hc, decodeEntries_serializeEntries es _ hb]
  rw [h4]
  simp only [readLE_natLE 4 checksum [] hcs]

/-- Error channel of the embedding.  The code's `anyhow` string errors are
collapsed to kinds; `.abort` models a Rust panic (failed `assert!`,
`.unwrap()` of `None`, out-of-bounds indexing), which aborts the process
and is distinct from every returned error. -/
inductive Err where
  | ioRead
  | checksumErr
  | notFound
  | alreadyExists
  | allocFailed
  | invalidArg
  | abort
deriving DecidableEq

/-- `util::now`: seconds since the epoch.  The embedding fixes the clock at
0 — no claim concerns time, and this makes every run deterministic. -/
def now : Nat := 0

/-- The magic bytes `*bitfs*`. -/
def MAGIC : List Nat := [0x2a, 0x62, 0x69, 0x74, 0x66, 0x73, 0x2a]

/-- `FS_VERSION`. -/
def FS_VERSION : Nat := 1

/-- `struct Superblock`. -/
structure Superblock where
  magic : List Nat
  fs_version : Nat
  block_size : Nat
  group_count : Nat
  block_count : Nat
  free_blocks : Nat
  file_count : Nat
  created : Nat
  modified : Nat
  checksum : Nat
deriving DecidableEq

/-- `Superblock::new`. -/
def Superblock.new : Superblock :=
  ⟨MAGIC, FS_VERSION, BLOCK_SIZE, 0, 1, 0, 0, now, now, 0⟩

/-- Model stand-in for the bincode serialization of the superblock (fixed
little-endian fields in declaration order); only determinism and the
checksum-field round trip matter to the claims. -/
def serializeSuperblock (sb : Superblock) : List Nat :=
  sb.magic ++ natLE 4 sb.fs_version ++ natLE 4 sb.block_size ++ natLE 4 sb.group_count ++
    natLE 4 sb.block_count ++ natLE 4 sb.free_blocks ++ natLE 4 sb.file_count ++
    natLE 8 sb.created ++ natLE 8 sb.modified ++ natLE 4 sb.checksum

/-- `Superblock::checksum`: zero the field, then store the CRC32 of the
serialized record. -/
def Superblock.setChecksum (sb : Superblock) : Superblock :=
  { sb with checksum := crc32 (serializeSuperblock { sb with checksum := 0 }) }

/-- `Superblock::verify_checksum`. -/
def Superblock.verify_checksum (sb : Superblock) : Bool :=
  sb.checksum == crc32 (serializeSuperblock { sb with checksum := 0 })

/-- `enum Data`: inline bytes or `(start_address, length)` regions. -/
inductive Data where
  | Raw : List Nat → Data
  | DirectPointers : List (Nat × Nat) → Data
deriving DecidableEq

/-- `struct Inode`. -/
structure Inode where
  block_index : Nat
  created : Nat
  last_modified : Nat
  size : Nat
  data_checksum : Nat
  data : Data
deriving DecidableEq

/-- `Inode::new`: fresh empty inline inode (`calculate_checksum(&())` is
the CRC32 of the empty byte string). -/
def Inode.new (block_index : Nat) : Inode :=
  ⟨block_index, now, now, 0, crc32 [], Data.Raw []⟩

/-- Model of the bincode-serialized inode length, used by the
`assert!(serialized.len() <= BLOCK_SIZE)` in `Inode::serialize_into`:
4 + 8 + 8 + 8 + 4 fixed fields, 4 bytes of enum tag, an 8-byte sequence
length, then the payload (1 byte per inline byte, 8 bytes per region). -/
def Inode.serializedSize (i : Inode) : Nat :=
  44 + (match i.data with
    | .Raw bs => bs.length
    | .DirectPointers ps => 8 * ps.length)

/-- `struct Directory`: the `BTreeMap<String, u32>` becomes an association
list with byte-string keys; the code only ever inserts a key after a
lookup miss, so appending preserves `BTreeMap` lookup semantics (key order
affects no claim). -/
structure Directory where
  files : List (List Nat × Nat)
  checksum : Nat
deriving DecidableEq

/-- `Directory::get_file`. -/
def Directory.get_file (d : Directory) (file_name : List Nat) : Option Nat :=
  (d.files.find? (fun e => e.1 == file_name)).map (fun e => e.2)

/-- `Directory::add_file` (fails on duplicate). -/
def Directory.add_file (d : Directory) (file_name : List Nat) (inode_block_index : Nat) :
    Except Err Directory :=
  match d.get_file file_name with
  | some _ => .error .alreadyExists
  | none => .ok { d with files := d.files ++ [(file_name, inode_block_index)] }

/-- `Directory::remove_file` (fails when absent). -/
def Directory.remove_file (d : Directory) (file_name : List Nat) : Except Err Directory :=
  match d.get_file file_name with
  | some _ => .ok { d with files := d.files.filter (fun e => !(e.1 == file_name)) }
  | none => .error .notFound

/-- Serialized form of a directory (model stand-in for bincode). -/
def Directory.serialize (d : Directory) : List Nat :=
  serializeMap d.files d.checksum

/-- `Directory::checksum`: zero the field, CRC the serialized record. -/
def Directory.setChecksum (d : Directory) : Directory :=
  { d with checksum := crc32 (serializeMap d.files 0) }

/-- `Directory::init`. -/
def Directory.init : Directory :=
  Directory.setChecksum ⟨[], 0⟩

/-- `struct DirectoryIndex` (path → directory-inode address). -/
structure DirectoryIndex where
  directories : List (List Nat × Nat)
  checksum : Nat
deriving DecidableEq

/-- `DirectoryIndex::find_dir`. -/
def DirectoryIndex.find_dir (di : DirectoryIndex) (dir : List Nat) : Option Nat :=
  (di.directories.find? (fun e => e.1 == dir)).map (fun e => e.2)

/-- `DirectoryIndex::create_dir`: insert if absent; `none` when the path
already exists (mirrors the Rust `Option<&u32>` result, with the updated
index returned on success). -/
def DirectoryIndex.create_dir (di : DirectoryIndex) (dir : List Nat) (inode_index : Nat) :
    Option DirectoryIndex :=
  match di.find_dir dir with
  | some _ => none
  | none => some { di with directories := di.directories ++ [(dir, inode_index)] }

/-- Serialized form of the directory index (model stand-in for bincode). -/
def DirectoryIndex.serialize (di : DirectoryIndex) : List Nat :=
  serializeMap di.directories di.checksum

/-- `DirectoryIndex::checksum`. -/
def DirectoryIndex.setChecksum (di : DirectoryIndex) : DirectoryIndex :=
  { di with checksum := crc32 (serializeMap di.directories 0) }

/-- `DirectoryIndex::verify_checksum`. -/
def DirectoryIndex.verify_checksum (di : DirectoryIndex) : Bool :=
  di.checksum == crc32 (serializeMap di.directories 0)

/-- `DirectoryIndex::init`. -/
def DirectoryIndex.init : DirectoryIndex :=
  DirectoryIndex.setChecksum ⟨[], 0⟩

/-- Model of the backing image file.  Inode records and the superblock are
kept as structured values at their block addresses (abstracting their
bincode bytes, whose encoding no claim concerns), group bitmap blocks as
bit lists, and data-block payloads as a byte-addressed store.  In the real
image these share one address space; they never alias because data blocks
are claimed from bitmap bits disjoint from inode bits and the address map
is injective (`create_public_address_injOn`). -/
structure Disk where
  superblock : Option Superblock
  groupBitmaps : Nat → Option (List Bool)
  inodes : Nat → Option Inode
  bytes : Nat → Nat

/-- Write a byte list at consecutive offsets of a byte store. -/
def writeBytesFn (f : Nat → Nat) (off : Nat) : List Nat → (Nat → Nat)
  | [] => f
  | b :: rest => writeBytesFn (fun a => if a = off then b else f a) (off + 1) rest

/-- Read `len` bytes starting at `off`. -/
def readBytesFn (f : Nat → Nat) (off len : Nat) : List Nat :=
  (List.range len).map (fun i => f (off + i))

/-- `struct FS`: the in-memory state (superblock, group vector, keystream)
plus the backing image. -/
structure FS where
  superblock : Superblock
  groups : List Group
  lookup_table : List Nat
  disk : Disk

/-- `FS::superblock_check`: recompute `group_count`, `free_blocks`,
`block_count`, bump `modified`, refresh the checksum. -/
def FS.superblock_check (fs : FS) : FS :=
  { fs with superblock :=
      ({ fs.superblock with
          group_count := fs.groups.length
          free_blocks := (fs.groups.map Group.count_zeros).sum
          block_count := (fs.groups.map Group.total_data_blocks).sum
          modified := now }).setChecksum }

/-- `FS::save_superblock`: run the check, persist the record at offset 0. -/
def FS.save_superblock (fs : FS) : FS :=
  let fs1 := fs.superblock_check
  { fs1 with disk := { fs1.disk with superblock := some fs1.superblock } }

/-- `FS::get_inode`: deserialize the record at the block; a block that
never held a serialized inode fails to deserialize. -/
def FS.get_inode (fs : FS) (inode_block_index : Nat) : Except Err Inode :=
  match fs.disk.inodes inode_block_index with
  | some i => .ok i
  | none => .error .ioRead

/-- `FS::save_inode`: bump `last_modified`, serialize into the inode's own
block; the `assert!(serialized.len() <= BLOCK_SIZE)` panics (`.abort`) when
the record would overflow the block. -/
def FS.save_inode (fs : FS) (inode : Inode) : Except Err (FS × Inode) :=
  let inode1 := { inode with last_modified := now }
  let upd : Nat → Option Inode := fun a =>
    if a = inode1.block_index then some inode1 else fs.disk.inodes a
  if inode1.serializedSize ≤ BLOCK_SIZE then
    .ok ({ fs with disk := { fs.disk with inodes := upd } }, inode1)
  else .error .abort

/-- `FS::save_group`: update the in-memory vector and persist the bitmap
block. -/
def FS.save_group (fs : FS) (group : Group) (group_index : Nat) : FS :=
  let upd : Nat → Option (List Bool) := fun i =>
    if i = group_index then some group.block_bitmap else fs.disk.groupBitmaps i
  { fs with
    groups := fs.groups.set group_index group
    disk := { fs.disk with groupBitmaps := upd } }

/-- Per-block read loop of `FS::read_inode_data` over one region: read
`BLOCK_SIZE` bytes per block (the remaining `data_left` for the final
partial block), XOR with the keystream, emit. -/
def readBlocksLoop (table : List Nat) (d : Nat → Nat) (block_index count data_left : Nat) :
    List Nat × Nat :=
  match count with
  | 0 => ([], data_left)
  | c + 1 =>
    let sz := if data_left < BLOCK_SIZE then data_left else BLOCK_SIZE
    let chunk := encrypt (readBytesFn d (block_seek_position block_index) sz) table
    let r := readBlocksLoop table d (block_index + 1) c (data_left - sz)
    (chunk ++ r.1, r.2)

/-- Walk `Regions` pointers in order, reading every block of every range. -/
def readPtrsLoop (table : List Nat) (d : Nat → Nat) :
    List (Nat × Nat) → Nat → List Nat × Nat
  | [], data_left => ([], data_left)
  | (block_index, range) :: rest, data_left =>
    let r1 := readBlocksLoop table d block_index range data_left
    let r2 := readPtrsLoop table d rest r1.2
    (r1.1 ++ r2.1, r2.2)

/-- `FS::read_inode_data`: decode inline data in place, or walk the
regions; returns the bytes written to the sink (the CRC the Rust function
also returns plays no role in any claim). -/
def FS.read_inode_data (fs : FS) (inode : Inode) : List Nat :=
  match inode.data with
  | .Raw data => encrypt data fs.lookup_table
  | .DirectPointers pointers =>
    (readPtrsLoop fs.lookup_table fs.disk.bytes pointers inode.size).1

/-- Per-block write loop of `FS::write_inode_data` over one region:
`read_exact` a block-sized chunk from the payload stream (the remaining
`data_left` for the final partial block), XOR, write at the block offset.
A short read is the `read_exact` I/O error. -/
def writeBlocksLoop (table : List Nat) (d : Nat → Nat) (block_index count : Nat)
    (payload : List Nat) (data_left : Nat) : Except Err ((Nat → Nat) × List Nat × Nat) :=
  match count with
  | 0 => .ok (d, payload, data_left)
  | c + 1 =>
    let sz := if data_left < BLOCK_SIZE then data_left else BLOCK_SIZE
    let chunk := payload.take sz
    if chunk.length < sz then .error .ioRead
    else
      writeBlocksLoop table
        (writeBytesFn d (block_seek_position block_index) (encrypt chunk table))
        (block_index + 1) c (payload.drop sz) (data_left - sz)

/-- Write the payload stream into the allocated ranges in order. -/
def writeRangesLoop (table : List Nat) (d : Nat → Nat) :
    List (Nat × Nat) → List Nat → Nat → Except Err ((Nat → Nat) × List Nat × Nat)
  | [], payload, data_left => .ok (d, payload, data_left)
  | (block_index, range) :: rest, payload, data_left =>
    match writeBlocksLoop table d block_index range payload data_left with
    | .error e => .error e
    | .ok (d1, p1, dl1) => writeRangesLoop table d1 rest p1 dl1

/-- The release loop of `FS::release_inode_data`: translate each pointer
and clear its bits on a copy of the group vector; an out-of-range group
index panics (`.abort`). -/
def releaseLoop (groups : List Group) : List (Nat × Nat) → Except Err (List Group)
  | [] => .ok groups
  | (block_index, range) :: rest =>
    let t := Group.translate_public_address block_index
    if h : t.1 < groups.length then
      releaseLoop
        (groups.set t.1 ((groups.get ⟨t.1, h⟩).release_data_region t.2 range)) rest
    else .error .abort

/-- Persist every group of the vector (`release_inode_data` saves groups
`0..len` after releasing). -/
def diskSaveAllGroups (d : Disk) (groups : List Group) : Disk :=
  { d with groupBitmaps := fun i =>
      match groups.get? i with
      | some g => some g.block_bitmap
      | none => d.groupBitmaps i }

/-- `FS::release_inode_data`. -/
def FS.release_inode_data (fs : FS) (data_pointers : List (Nat × Nat)) : Except Err FS :=
  match releaseLoop fs.groups data_pointers with
  | .error e => .error e
  | .ok gs => .ok { fs with groups := gs, disk := diskSaveAllGroups fs.disk gs }

/-- The group scan of `FS::allocate_inode`: first-fit across groups, in
memory only (the group is *not* persisted here — mirrors the source). -/
def allocateInMemLoop : List Group → Nat → Option (Nat × List Group)
  | [], _ => none
  | g :: rest, group_index =>
    match g.allocate_one group_index with
    | some (addr, g1) => some (addr, g1 :: rest)
    | none =>
      match allocateInMemLoop rest (group_index + 1) with
      | some (addr, rest1) => some (addr, g :: rest1)
      | none => none

/-- `FS::allocate_inode`: claim a bit, build a fresh inode, save its
record; the `.unwrap()` on the save panics on failure. -/
def FS.allocate_inode (fs : FS) : Except Err (Option (FS × Inode)) :=
  match allocateInMemLoop fs.groups 0 with
  | none => .ok none
  | some (addr, groups1) =>
    match FS.save_inode { fs with groups := groups1 } (Inode.new addr) with
    | .ok x => .ok (some x)
    | .error _ => .error .abort

/-- `FS::release_inode`: release region data (if any), then clear and
persist the inode's own bit. -/
def FS.release_inode (fs : FS) (inode_block_index : Nat) : Except Err FS :=
  match fs.get_inode inode_block_index with
  | .error e => .error e
  | .ok inode =>
    let t := Group.translate_public_address inode_block_index
    match (match inode.data with
           | .Raw _ => .ok fs
           | .DirectPointers ps => fs.release_inode_data ps : Except Err FS) with
    | .error e => .error e
    | .ok fs1 =>
      if h : t.1 < fs1.groups.length then
        .ok (fs1.save_group ((fs1.groups.get ⟨t.1, h⟩).release_one t.2) t.1)
      else .error .abort

/-- `FS::add_group`: push the group, persist it, bump `group_count`,
truncate the host file (a no-op on the model state) and save the
superblock. -/
def FS.add_group (fs : FS) (group : Group) : FS :=
  let groups1 := fs.groups ++ [group]
  let upd : Nat → Option (List Bool) := fun i =>
    if i = groups1.length - 1 then some group.block_bitmap else fs.disk.groupBitmaps i
  let fs1 := { fs with groups := groups1, disk := { fs.disk with groupBitmaps := upd } }
  let fs2 := { fs1 with superblock :=
    { fs1.superblock with group_count := fs1.superblock.group_count + 1 } }
  fs2.save_superblock

/-- The `while free_blocks < need { add_group }` loop of
`write_inode_data`.  Each `add_group` recomputes `free_blocks` as the total
of bitmap zeros, which grows by `BLOCK_SIZE * 8` per fresh group, so
`need + 1` rounds of fuel always suffice; exhausted fuel (unreachable, see
`addGroupsWhile_total`) is reported as `none`. -/
def FS.addGroupsWhile (fuel : Nat) (fs : FS) (need : Nat) : Option FS :=
  match fuel with
  | 0 => if fs.superblock.free_blocks < need then none else some fs
  | fuel + 1 =>
    if fs.superblock.free_blocks < need then
      FS.addGroupsWhile fuel (fs.add_group Group.init) need
    else some fs

/-- `blocks_to_allocate` closure in `write_inode_data`: `ceil(len / B)`. -/
def blocks_to_allocate (data_size : Nat) : Nat :=
  data_size / BLOCK_SIZE + (if data_size % BLOCK_SIZE ≠ 0 then 1 else 0)

/-- The per-group allocation loop of `write_inode_data`: while blocks are
still wanted, call `allocate_region` on the group (budget
`INODE_MAX_REGION` per call) and persist it; groups reached after the want
is exhausted are left untouched.  Returns the group vector, the disk, the
concatenated ranges and the unallocated remainder. -/
def allocGroupsLoop (maxr : Nat) : List Group → Nat → Nat → Disk →
    List Group × Disk × List (Nat × Nat) × Nat
  | [], _, want, d => ([], d, [], want)
  | g :: rest, group_index, want, d =>
    if want > 0 then
      let a := g.allocate_region group_index want maxr
      let upd : Nat → Option (List Bool) := fun i =>
        if i = group_index then some a.1.block_bitmap else d.groupBitmaps i
      let d1 := { d with groupBitmaps := upd }
      let r := allocGroupsLoop maxr rest (group_index + 1) a.2.2 d1
      (a.1 :: r.1, r.2.1, a.2.1 ++ r.2.2.1, r.2.2.2)
    else (g :: rest, d, [], want)

/-- `FS::write_inode_data`: release any old `Regions` body; inline payloads
are encrypted and stored in the record; larger payloads get groups added
until `free_blocks` suffices, regions allocated group by group, the inode
saved with its pointers, and the stream encrypted block by block into the
ranges.  The final `assert!(data_left == 0)` panics (`.abort`) when the
ranges did not absorb the whole payload. -/
def FS.write_inode_data (fs : FS) (inode : Inode) (payload : List Nat) (data_len : Nat) :
    Except Err (FS × Inode) :=
  match (match inode.data with
         | .Raw _ => .ok fs
         | .DirectPointers ps => fs.release_inode_data ps : Except Err FS) with
  | .error e => .error e
  | .ok fs =>
    if data_len ≤ INODE_CAPACITY then
      let buffer := encrypt payload fs.lookup_table
      if buffer.length ≠ data_len then .error .invalidArg
      else if INODE_CAPACITY < buffer.length then .error .invalidArg
      else fs.save_inode { inode with size := data_len, data := .Raw buffer }
    else
      match fs.save_inode { inode with size := data_len } with
      | .error e => .error e
      | .ok (fs, inode) =>
        match FS.addGroupsWhile (blocks_to_allocate data_len + 1) fs
            (blocks_to_allocate data_len) with
        | none => .error .abort
        | some fs =>
          let a := allocGroupsLoop INODE_MAX_REGION fs.groups 0
            (blocks_to_allocate data_len) fs.disk
          match FS.save_inode { fs with groups := a.1, disk := a.2.1 }
              { inode with size := data_len, data := .DirectPointers a.2.2.1 } with
          | .error e => .error e
          | .ok (fs, inode) =>
            match writeRangesLoop fs.lookup_table fs.disk.bytes a.2.2.1 payload data_len with
            | .error e => .error e
            | .ok (d1, _, data_left) =>
              if data_left = 0 then
                .ok ({ fs with disk := { fs.disk with bytes := d1 } }, inode)
              else .error .abort

/-- `FS::get_directory_index`: read the inode at the root address, decode
its data and verify the index checksum. -/
def FS.get_directory_index (fs : FS) : Except Err DirectoryIndex :=
  match fs.get_inode ROOT_INODE_INDEX with
  | .error e => .error e
  | .ok inode =>
    match decodeMap (fs.read_inode_data inode) with
    | none => .error .ioRead
    | some (es, c) =>
      if DirectoryIndex.verify_checksum ⟨es, c⟩ then .ok ⟨es, c⟩
      else .error .checksumErr

/-- `FS::save_directory_index`: refresh the checksum, serialize, write
through the inode data path at the root address. -/
def FS.save_directory_index (fs : FS) (directory_index : DirectoryIndex) : Except Err FS :=
  match fs.get_inode ROOT_INODE_INDEX with
  | .error e => .error e
  | .ok inode =>
    let di := directory_index.setChecksum
    match fs.write_inode_data inode di.serialize di.serialize.length with
    | .error e => .error e
    | .ok (fs, _) => .ok fs

/-- `FS::init_directory_index`: serialize a fresh index, create the root
inode, save its record, then write the index bytes through the data path. -/
def FS.init_directory_index (fs : FS) : Except Err FS :=
  let data := DirectoryIndex.init.serialize
  match fs.save_inode (Inode.new ROOT_INODE_INDEX) with
  | .error e => .error e
  | .ok (fs, inode) =>
    match fs.write_inode_data inode data data.length with
    | .error e => .error e
    | .ok (fs, _) => .ok fs

/-- `FS::find_directory`: look the path up in the index, read the
directory inode's data and decode it (the source does not verify the
directory checksum on read). -/
def FS.find_directory (fs : FS) (dir : List Nat) : Except Err (Directory × Nat) :=
  match fs.get_directory_index with
  | .error e => .error e
  | .ok directory_index =>
    match directory_index.find_dir dir with
    | some directory_inode_index =>
      match fs.get_inode directory_inode_index with
      | .error e => .error e
      | .ok dirInode =>
        match decodeMap (fs.read_inode_data dirInode) with
        | none => .error .ioRead
        | some (es, c) => .ok (⟨es, c⟩, directory_inode_index)
    | none => .error .notFound

/-- `FS::save_directory`: serialize the directory (its checksum field is
*not* refreshed — mirrors the source) and write it through the inode data
path. -/
def FS.save_directory (fs : FS) (directory : Directory) (directory_inode_index : Nat) :
    Except Err (FS × Directory) :=
  match fs.get_inode directory_inode_index with
  | .error e => .error e
  | .ok dirInode =>
    match fs.write_inode_data dirInode directory.serialize directory.serialize.length with
    | .error e => .error e
    | .ok (fs, _) => .ok (fs, directory)

/-- `FS::create_directory`: speculatively allocate an inode, try to insert
the path into the index (releasing the inode bit when the path already
exists), save the index, then create and save a fresh empty directory at
the allocated inode — in the duplicate case this writes the empty
directory at the just-released block and returns it. -/
def FS.create_directory (fs : FS) (dir : List Nat) : Except Err (FS × Directory) :=
  match fs.get_directory_index with
  | .error e => .error e
  | .ok directory_index =>
    match fs.allocate_inode with
    | .error e => .error e
    | .ok none => .error .allocFailed
    | .ok (some (fs, directory_inode)) =>
      match (match directory_index.create_dir dir directory_inode.block_index with
             | some di1 => .ok (fs, di1)
             | none =>
               match fs.release_inode directory_inode.block_index with
               | .error e => .error e
               | .ok fs1 => .ok (fs1, directory_index) : Except Err (FS × DirectoryIndex)) with
      | .error e => .error e
      | .ok (fs, di) =>
        match fs.save_directory_index di with
        | .error e => .error e
        | .ok fs => fs.save_directory Directory.init directory_inode.block_index

/-- `FS::add_file`: find the directory; reuse the existing file inode or
allocate a fresh one (registering it in the directory and bumping
`file_count`); write the payload through the inode data path; save the
superblock.  The `.unwrap()` on a failed allocation panics (`.abort`). -/
def FS.add_file (fs : FS) (dir file_name : List Nat) (payload : List Nat) (data_len : Nat) :
    Except Err FS :=
  match fs.find_directory dir with
  | .error e => .error e
  | .ok (d, dir_inode_index) =>
    match (match d.get_file file_name with
           | some idx =>
             match fs.get_inode idx with
             | .error e => .error e
             | .ok i => .ok (fs, i)
           | none =>
             match fs.allocate_inode with
             | .error e => .error e
             | .ok none => .error .abort
             | .ok (some (fs, file_inode)) =>
               match d.add_file file_name file_inode.block_index with
               | .error e => .error e
               | .ok d1 =>
                 match fs.save_directory d1 dir_inode_index with
                 | .error e => .error e
                 | .ok (fs, _) =>
                   .ok ({ fs with superblock :=
                     { fs.superblock with file_count := fs.superblock.file_count + 1 } },
                     file_inode) : Except Err (FS × Inode)) with
    | .error e => .error e
    | .ok (fs, file_inode) =>
      match fs.write_inode_data file_inode payload data_len with
      | .error e => .error e
      | .ok (fs, _) => .ok fs.save_superblock

/-- `FS::remove_file`: find the directory and the file inode, release the
inode, drop the entry, save directory and superblock.  `file_count` is
*not* decremented — mirrors the source. -/
def FS.remove_file (fs : FS) (dir file_name : List Nat) : Except Err FS :=
  match fs.find_directory dir with
  | .error e => .error e
  | .ok (d, dir_inode_index) =>
    match (match d.get_file file_name with
           | some idx =>
             match fs.get_inode idx with
             | .ok i => .ok i
             | .error _ => .error .notFound
           | none => .error .notFound : Except Err Inode) with
    | .error e => .error e
    | .ok file_inode =>
      match fs.release_inode file_inode.block_index with
      | .error e => .error e
      | .ok fs =>
        match d.remove_file file_name with
        | .error e => .error e
        | .ok d1 =>
          match fs.save_directory d1 dir_inode_index with
          | .error e => .error e
          | .ok (fs, _) => .ok fs.save_superblock

/-- `FS::get_file_data`: find the directory, find the file, stream its
decoded data. -/
def FS.get_file_data (fs : FS) (dir file_name : List Nat) : Except Err (List Nat) :=
  match fs.find_directory dir with
  | .error e => .error e
  | .ok (directory, _) =>
    match directory.get_file file_name with
    | some idx =>
      match fs.get_inode idx with
      | .error e => .error e
      | .ok file_inode => .ok (fs.read_inode_data file_inode)
    | none => .error .notFound

/-- `FS::init`: fresh image — empty superblock, one group with the root
inode bit force-allocated, then the directory index written through the
normal inode path.  (Host-file creation and its `AlreadyExists` are outside
the model; the disk starts empty.) -/
def FS.init (secret : List Nat) : Except Err FS :=
  match create_lookup_table secret BLOCK_SIZE with
  | none => .error .abort
  | some table =>
    let fs : FS :=
      { superblock := Superblock.new
        groups := []
        lookup_table := table
        disk := { superblock := none, groupBitmaps := fun _ => none,
                  inodes := fun _ => none, bytes := fun _ => 0 } }
    (fs.add_group (Group.init.force_allocate_at 0)).init_directory_index

/-- Read `count` group bitmap blocks from the image (`FS::new`'s loop). -/
def readGroupsFrom (disk : Disk) (start : Nat) : Nat → Option (List Group)
  | 0 => some []
  | c + 1 =>
    match disk.groupBitmaps start with
    | none => none
    | some bm =>
      match readGroupsFrom disk (start + 1) c with
      | some gs => some (⟨bm⟩ :: gs)
      | none => none

/-- `FS::new` (open): load and verify the superblock, read `group_count`
groups, rebuild the keystream from the secret. -/
def FS.fsOpen (disk : Disk) (secret : List Nat) : Except Err FS :=
  match disk.superblock with
  | none => .error .ioRead
  | some sb =>
    if sb.verify_checksum then
      match readGroupsFrom disk 0 sb.group_count with
      | none => .error .ioRead
      | some groups =>
        match create_lookup_table secret BLOCK_SIZE with
        | none => .error .abort
        | some table =>
          .ok { superblock := sb, groups := groups, lookup_table := table, disk := disk }
    else .error .checksumErr

/-- Extract a successful state, with a fallback (used only to name the
states of concrete runs; every run below is proved to be `.ok`). -/
def getOkFS (r : Except Err FS) (fallback : FS) : FS :=
  match r with
  | .ok fs => fs
  | .error _ => fallback

/-- A scaled-down `Group::init` for concrete runs: the bitmap holds 8 bits
instead of `BLOCK_SIZE * 8`.  Every operation below treats the bitmap
width uniformly (see the width-generic theorems), and a 32768-bit bitmap
overwhelms kernel reduction; the scenarios are otherwise exactly the code's
own initialization and mutation sequences. -/
def tinyGroup : Group := ⟨List.replicate 8 false⟩

/-- The pre-`init` state: fresh superblock, no groups, the keystream built
from the secret `[7]` exactly as `FS::new` builds it, empty image. -/
def scenarioBase : FS :=
  { superblock := Superblock.new
    groups := []
    lookup_table := (create_lookup_table [7] BLOCK_SIZE).getD []
    disk := { superblock := none, groupBitmaps := fun _ => none,
              inodes := fun _ => none, bytes := fun _ => 0 } }

/-- `FS::init`'s body replayed on the scaled-down group: add the group with
the root bit force-allocated, then write the directory index. -/
def scenario0 : Except Err FS :=
  (scenarioBase.add_group (tinyGroup.force_allocate_at 0)).init_directory_index

/-- The freshly initialized state. -/
def X1 : FS := getOkFS scenario0 scenarioBase

/-- After `create_directory "/x"` (the path is the byte string `[47, 120]`). -/
def X2 : FS := getOkFS ((X1.create_directory [47, 120]).map (fun p => p.1)) X1

/-- After `add_file "/x" "f"` with the 3-byte payload `[10, 20, 30]`. -/
def X3 : FS := getOkFS (X2.add_file [47, 120] [102] [10, 20, 30] 3) X2

/-- After `remove_file "/x" "f"`. -/
def X4 : FS := getOkFS (X3.remove_file [47, 120] [102]) X3

set_option maxRecDepth 40000 in
example : scenario0.isOk = true := by decide

set_option maxRecDepth 40000 in
example : (X1.create_directory [47, 120]).isOk = true := by decide

set_option maxRecDepth 40000 in
example : X1.superblock.free_blocks = 7 := by decide

set_option maxRecDepth 40000 in
example : X2.superblock.free_blocks = 7 ∧ (X2.groups.map Group.count_zeros).sum = 6 := by
  decide

/-- The state after `save_inode` writes a record (proof-side view). -/
def setInodeRecord (fs : FS) (i : Inode) : FS :=
  { fs with disk := { fs.disk with inodes := fun a =>
      if a = i.block_index then some i else fs.disk.inodes a } }

/-- The inode produced by the inline branch of `write_inode_data`. -/
def inlineInode (fs : FS) (inode : Inode) (p : List Nat) : Inode :=
  { inode with
      size := p.length
      last_modified := now
      data := .Raw (encrypt p fs.lookup_table) }

theorem save_inode_eq (fs : FS) (i : Inode)
    (h : ({ i with last_modified := now } : Inode).serializedSize ≤ BLOCK_SIZE) :
    fs.save_inode i =
      .ok (setInodeRecord fs { i with last_modified := now },
        { i with last_modified := now }) := by
  simp only [FS.save_inode, setInodeRecord, if_pos h]

theorem serializedSize_raw (i : Inode) (bs : List Nat) (h : i.data = .Raw bs) :
    i.serializedSize = 44 + bs.length := by
  simp [Inode.serializedSize, h]

/-- The inline branch of `write_inode_data`: for a payload within
`INODE_CAPACITY` on an inode whose current body is `Raw`, the write
succeeds, stores the encrypted payload in the record at the inode's own
block, and touches nothing else. -/
theorem write_inode_data_inline (fs : FS) (inode : Inode) (p bs : List Nat)
    (hraw : inode.data = .Raw bs) (hlen : p.length ≤ INODE_CAPACITY) :
    fs.write_inode_data inode p p.length =
      .ok (setInodeRecord fs (inlineInode fs inode p), inlineInode fs inode p) := by
  have henc : (encrypt p fs.lookup_table).length = p.length := encrypt_length p fs.lookup_table
  unfold FS.write_inode_data
  rw [hraw]
  simp only [if_pos hlen, henc]
  rw [if_neg (by omega : ¬p.length ≠ p.length),
    if_neg (by omega : ¬INODE_CAPACITY < p.length)]
  rw [save_inode_eq]
  · rfl
  · have hc : INODE_CAPACITY = 4047 := rfl
    have hb : BLOCK_SIZE = 4096 := rfl
    simp only [Inode.serializedSize, henc]
    omega

/-- Clearing a bit that is already clear is the identity. -/
theorem set_false_id (l : List Bool) : ∀ (k : Nat), k < l.length → l[k]? = some false →
    l.set k false = l := by
  induction l with
  | nil => intro k h; simp at h
  | cons b bs ih =>
    intro k h hf
    cases k with
    | zero =>
      simp only [List.getElem?_cons_zero, Option.some.injEq] at hf
      subst hf
      simp
    | succ k =>
      simp only [List.getElem?_cons_succ] at hf
      simp only [List.set_cons_succ]
      rw [ih k (by simpa using h) hf]

theorem set_true_set_false (l : List Bool) (k : Nat) (h : k < l.length)
    (hf : l[k]? = some false) : (l.set k true).set k false = l := by
  rw [List.set_set]
  exact set_false_id l k h hf

theorem count_false_set_true (l : List Bool) : ∀ (k : Nat) (hk : k < l.length),
    l[k] = false → (l.set k true).count false + 1 = l.count false := by
  induction l with
  | nil => intro k h; simp at h
  | cons b bs ih =>
    intro k hk hf
    cases k with
    | zero =>
      simp only [List.getElem_cons_zero] at hf
      subst hf
      simp [List.count_cons]
    | succ k =>
      simp only [List.getElem_cons_succ] at hf
      have := ih k (by simpa using hk) hf
      simp only [List.set_cons_succ, List.count_cons]
      omega

theorem findIdx?_not_spec (l : List Bool) (k : Nat)
    (h : l.findIdx? (fun b => !b) = some k) : ∃ hk : k < l.length, l[k] = false := by
  obtain ⟨hk, hp, _⟩ := List.findIdx?_eq_some_iff_getElem.mp h
  exact ⟨hk, by simpa using hp⟩

/-- What `Group::allocate_one` does when it succeeds. -/
theorem allocate_one_some (g : Group) (gi addr : Nat) (g' : Group)
    (h : g.allocate_one gi = some (addr, g')) :
    ∃ k, ∃ hk : k < g.block_bitmap.length, g.block_bitmap[k] = false ∧
      g'.block_bitmap = g.block_bitmap.set k true ∧
      addr = Group.create_public_address gi k := by
  unfold Group.allocate_one at h
  split at h
  case h_1 k heq =>
    obtain ⟨hk, hv⟩ := findIdx?_not_spec g.block_bitmap k heq
    injection h with h1
    injection h1 with ha hg
    exact ⟨k, hk, hv, by rw [← hg], ha.symm⟩
  case h_2 => cases h

theorem sum_set (l : List Nat) : ∀ (j a : Nat) (h : j < l.length),
    (l.set j a).sum + l[j] = l.sum + a := by
  induction l with
  | nil => intro j a h; simp at h
  | cons x xs ih =>
    intro j a h
    cases j with
    | zero => simp [Nat.add_comm, Nat.add_assoc, Nat.add_left_comm]
    | succ j =>
      have := ih j a (by simpa using h)
      simp only [List.set_cons_succ, List.sum_cons, List.getElem_cons_succ]
      omega

/-- What the `allocate_inode` group scan does when it succeeds: it sets one
previously clear bit of one group and returns that bit's address. -/
theorem allocateInMemLoop_some (groups : List Group) : ∀ (gi0 addr : Nat)
    (groups' : List Group), allocateInMemLoop groups gi0 = some (addr, groups') →
    ∃ j, ∃ hj : j < groups.length, ∃ k, ∃ hk : k < groups[j].block_bitmap.length,
      groups[j].block_bitmap[k] = false ∧
      groups' = groups.set j ⟨groups[j].block_bitmap.set k true⟩ ∧
      addr = Group.create_public_address (gi0 + j) k := by
  induction groups with
  | nil => intro gi0 addr groups' h; simp [allocateInMemLoop] at h
  | cons g rest ih =>
    intro gi0 addr groups' h
    unfold allocateInMemLoop at h
    split at h
    case h_1 addr1 g1 heq =>
      injection h with h1
      injection h1 with ha hg
      obtain ⟨k, hk, hv, hset, haddr⟩ := allocate_one_some g gi0 addr1 g1 heq
      refine ⟨0, by simp, k, by simpa using hk, by simpa using hv, ?_, ?_⟩
      · rw [← hg, List.set_cons_zero]
        congr 1
        cases g1 with
        | mk bm => simpa using hset
      · rw [← ha, haddr]
        simp
    case h_2 heq =>
      split at h
      case h_1 addr1 rest1 heq1 =>
        injection h with h1
        injection h1 with ha hg
        obtain ⟨j, hj, k, hk, hv, hset, haddr⟩ := ih (gi0 + 1) addr1 rest1 heq1
        refine ⟨j + 1, by simpa using hj, k, by simpa using hk, by simpa using hv, ?_, ?_⟩
        · rw [← hg, hset, List.set_cons_succ]
          simp
        · rw [← ha, haddr]
          congr 1
          omega
      case h_2 => cases h

theorem setInodeRecord_superblock (fs : FS) (i : Inode) :
    (setInodeRecord fs i).superblock = fs.superblock := rfl

theorem setInodeRecord_groups (fs : FS) (i : Inode) :
    (setInodeRecord fs i).groups = fs.groups := rfl

theorem setInodeRecord_lookup (fs : FS) (i : Inode) :
    (setInodeRecord fs i).lookup_table = fs.lookup_table := rfl

theorem setInodeRecord_bytes (fs : FS) (i : Inode) :
    (setInodeRecord fs i).disk.bytes = fs.disk.bytes := rfl

theorem get_inode_setInodeRecord_self (fs : FS) (i : Inode) :
    (setInodeRecord fs i).get_inode i.block_index = .ok i := by
  simp [setInodeRecord, FS.get_inode]

theorem get_inode_setInodeRecord_ne (fs : FS) (i : Inode) (idx : Nat)
    (h : idx ≠ i.block_index) :
    (setInodeRecord fs i).get_inode idx = fs.get_inode idx := by
  simp [setInodeRecord, FS.get_inode, h]

theorem get_inode_groups_irrel (fs : FS) (groups1 : List Group) (idx : Nat) :
    FS.get_inode { fs with groups := groups1 } idx = fs.get_inode idx := rfl

/-- Decidable check: the record at block `idx` exists, names `idx` as its
own block index, and carries an inline (`Raw`) body. -/
def inodeInlineAt (fs : FS) (idx : Nat) : Bool :=
  match fs.disk.inodes idx with
  | some i => (i.block_index == idx) &&
      (match i.data with | .Raw _ => true | .DirectPointers _ => false)
  | none => false

theorem inodeInlineAt_spec (fs : FS) (idx : Nat) (h : inodeInlineAt fs idx = true) :
    ∃ i bs, fs.disk.inodes idx = some i ∧ i.block_index = idx ∧ i.data = .Raw bs := by
  unfold inodeInlineAt at h
  split at h
  case h_1 i heq =>
    rw [Bool.and_eq_true] at h
    obtain ⟨h1, h2⟩ := h
    cases hd : i.data with
    | Raw bs => exact ⟨i, bs, heq, by simpa using h1, hd⟩
    | DirectPointers ps => simp [hd] at h2
  case h_2 => cases h

/-- Evaluation of `allocate_inode` when the bit scan succeeds. -/
theorem allocate_inode_eq (fs : FS) (addr : Nat) (groups1 : List Group)
    (h : allocateInMemLoop fs.groups 0 = some (addr, groups1)) :
    fs.allocate_inode =
      .ok (some (setInodeRecord { fs with groups := groups1 } (Inode.new addr),
        Inode.new addr)) := by
  have hsize : ({ Inode.new addr with last_modified := now } : Inode).serializedSize
      ≤ BLOCK_SIZE := by
    simp [Inode.new, Inode.serializedSize, BLOCK_SIZE]
  have hs := save_inode_eq { fs with groups := groups1 } (Inode.new addr) hsize
  unfold FS.allocate_inode
  simp only [h]
  rw [hs]
  rfl

theorem length_serializeEntries (es : List (List Nat × Nat)) :
    (serializeEntries es).length = (es.map (fun e => 12 + e.1.length)).sum := by
  induction es with
  | nil => rfl
  | cons e es ih =>
    rw [serializeEntries_cons]
    simp only [List.length_append, serializeEntry, natLE_length, ih, List.map_cons,
      List.sum_cons]
    omega

theorem length_serializeMap (es : List (List Nat × Nat)) (c : Nat) :
    (serializeMap es c).length = 12 + (es.map (fun e => 12 + e.1.length)).sum := by
  simp only [serializeMap, List.length_append, natLE_length, length_serializeEntries]
  omega

/-- The `allocate_inode` scan claims exactly one previously clear bit. -/
theorem allocateInMemLoop_zeros (groups : List Group) (gi0 addr : Nat)
    (groups' : List Group) (h : allocateInMemLoop groups gi0 = some (addr, groups')) :
    (groups'.map Group.count_zeros).sum + 1 = (groups.map Group.count_zeros).sum := by
  obtain ⟨j, hj, k, hk, hv, hset, _⟩ := allocateInMemLoop_some groups gi0 addr groups' h
  subst hset
  rw [List.map_set]
  have hsum := sum_set (groups.map Group.count_zeros) j
    (Group.count_zeros ⟨groups[j].block_bitmap.set k true⟩)
    (by simpa using hj)
  simp only [List.getElem_map] at hsum
  have hcnt := count_false_set_true groups[j].block_bitmap k hk hv
  simp only [Group.count_zeros] at hsum ⊢
  omega

theorem save_superblock_inv (fs0 : FS) :
    (fs0.save_superblock).superblock.free_blocks =
        ((fs0.save_superblock).groups.map Group.count_zeros).sum ∧
      (fs0.save_superblock).superblock.group_count = (fs0.save_superblock).groups.length := by
  simp [FS.save_superblock, FS.superblock_check, Superblock.setChecksum]

/-- Every successful `add_file` ends in `save_superblock`. -/
theorem add_file_ok_shape (fs : FS) (dir name p : List Nat) (len : Nat) (fs' : FS)
    (h : fs.add_file dir name p len = .ok fs') : ∃ fs0 : FS, fs' = fs0.save_superblock := by
  unfold FS.add_file at h
  split at h
  · exact Except.noConfusion h
  · split at h
    · exact Except.noConfusion h
    · split at h
      · exact Except.noConfusion h
      · injection h with h1
        exact ⟨_, h1.symm⟩

/-- Every successful `remove_file` ends in `save_superblock`. -/
theorem remove_file_ok_shape (fs : FS) (dir name : List Nat) (fs' : FS)
    (h : fs.remove_file dir name = .ok fs') : ∃ fs0 : FS, fs' = fs0.save_superblock := by
  unfold FS.remove_file at h
  split at h
  · exact Except.noConfusion h
  · split at h
    · exact Except.noConfusion h
    · split at h
      · exact Except.noConfusion h
      · split at h
        · exact Except.noConfusion h
        · split at h
          · exact Except.noConfusion h
          · injection h with h1
            exact ⟨_, h1.symm⟩

/-- Evaluation of `save_directory_index` when the root record is inline. -/
theorem save_directory_index_inline (fs : FS) (di : DirectoryIndex) (rootI : Inode)
    (bs : List Nat)
    (hrec : fs.disk.inodes ROOT_INODE_INDEX = some rootI)
    (hraw : rootI.data = .Raw bs)
    (hlen : di.setChecksum.serialize.length ≤ INODE_CAPACITY) :
    fs.save_directory_index di =
      .ok (setInodeRecord fs (inlineInode fs rootI di.setChecksum.serialize)) := by
  have hget : fs.get_inode ROOT_INODE_INDEX = .ok rootI := by
    simp [FS.get_inode, hrec]
  unfold FS.save_directory_index
  simp only [hget]
  rw [write_inode_data_inline fs rootI _ bs hraw hlen]

/-- Evaluation of `save_directory` when the directory record is inline. -/
theorem save_directory_inline (fs : FS) (d : Directory) (idx : Nat) (dirI : Inode)
    (bs : List Nat)
    (hrec : fs.disk.inodes idx = some dirI)
    (hraw : dirI.data = .Raw bs)
    (hlen : d.serialize.length ≤ INODE_CAPACITY) :
    fs.save_directory d idx =
      .ok (setInodeRecord fs (inlineInode fs dirI d.serialize), d) := by
  have hget : fs.get_inode idx = .ok dirI := by
    simp [FS.get_inode, hrec]
  unfold FS.save_directory
  simp only [hget]
  rw [write_inode_data_inline fs dirI _ bs hraw hlen]

theorem length_serialize_init : Directory.init.serialize.length ≤ INODE_CAPACITY := by
  rw [Directory.serialize, length_serializeMap]
  simp [Directory.init, Directory.setChecksum, INODE_CAPACITY]

/-- Evaluation of `create_directory` on a path absent from the index, under
the sanity conditions that hold for every state the code itself builds: the
root record is inline and the allocated bit is not the root's.  The call
returns a fresh empty directory, leaves the superblock untouched (stale
`free_blocks`), and claims exactly the newly allocated bit. -/
theorem create_directory_fresh (fs : FS) (dir : List Nat) (di : DirectoryIndex)
    (addr : Nat) (groups1 : List Group)
    (hdi : fs.get_directory_index = .ok di)
    (hfresh : di.find_dir dir = none)
    (halloc : allocateInMemLoop fs.groups 0 = some (addr, groups1))
    (haddr : addr ≠ ROOT_INODE_INDEX)
    (hroot : inodeInlineAt fs ROOT_INODE_INDEX = true)
    (hlen1 : (DirectoryIndex.setChecksum
        ⟨di.directories ++ [(dir, addr)], di.checksum⟩).serialize.length ≤ INODE_CAPACITY) :
    ∃ fs', fs.create_directory dir = .ok (fs', Directory.init) ∧
      fs'.superblock = fs.superblock ∧ fs'.groups = groups1 := by
  obtain ⟨rootI, rbs, hrootrec, hrootidx, hrootraw⟩ := inodeInlineAt_spec fs _ hroot
  have halloci := allocate_inode_eq fs addr groups1 halloc
  have hcd : di.create_dir dir addr =
      some ⟨di.directories ++ [(dir, addr)], di.checksum⟩ := by
    unfold DirectoryIndex.create_dir
    rw [hfresh]
  set fsA := setInodeRecord { fs with groups := groups1 } (Inode.new addr) with hfsA
  have hArec : fsA.disk.inodes ROOT_INODE_INDEX = some rootI := by
    rw [hfsA]
    simp only [setInodeRecord]
    rw [if_neg (fun hcon => haddr (by simpa [Inode.new] using hcon.symm))]
    exact hrootrec
  have hsdi := save_directory_index_inline fsA
    ⟨di.directories ++ [(dir, addr)], di.checksum⟩ rootI rbs hArec hrootraw hlen1
  set fsB := setInodeRecord fsA (inlineInode fsA rootI
    (DirectoryIndex.setChecksum
      ⟨di.directories ++ [(dir, addr)], di.checksum⟩).serialize) with hfsB
  have hBrec : fsB.disk.inodes addr = some (Inode.new addr) := by
    rw [hfsB, hfsA]
    simp only [setInodeRecord, inlineInode]
    rw [if_neg (by simpa [hrootidx] using haddr), if_pos (by simp [Inode.new])]
  have hsd := save_directory_inline fsB Directory.init addr (Inode.new addr) [] hBrec
    (by simp [Inode.new]) length_serialize_init
  refine ⟨setInodeRecord fsB (inlineInode fsB (Inode.new addr) Directory.init.serialize),
    ?_, ?_, ?_⟩
  · unfold FS.create_directory
    simp only [hdi, halloci]
    rw [show (Inode.new addr).block_index = addr from rfl, hcd]
    simp only [hsdi]
    rw [hsd]
  · rw [setInodeRecord_superblock, hfsB, setInodeRecord_superblock, hfsA,
      setInodeRecord_superblock]
  · rw [setInodeRecord_groups, hfsB, setInodeRecord_groups, hfsA, setInodeRecord_groups]

/-- C3 (amended): after every successful `add_file` and `remove_file` the
superblock satisfies `free_blocks = Σ count_zeros(bitmap)` and
`group_count = |groups|` — both end in `save_superblock`, which recomputes
the counters.  `create_directory`, however, never saves the superblock: a
fresh directory leaves `free_blocks` stale by exactly the newly allocated
inode bit (`Σ count_zeros` drops by one while the superblock is unchanged). -/
theorem C3_superblock_counters_amended :
    (∀ fs dir name p len fs', FS.add_file fs dir name p len = .ok fs' →
      fs'.superblock.free_blocks = (fs'.groups.map Group.count_zeros).sum ∧
      fs'.superblock.group_count = fs'.groups.length) ∧
    (∀ fs dir name fs', FS.remove_file fs dir name = .ok fs' →
      fs'.superblock.free_blocks = (fs'.groups.map Group.count_zeros).sum ∧
      fs'.superblock.group_count = fs'.groups.length) ∧
    (∀ fs dir di addr groups1,
      fs.get_directory_index = .ok di →
      di.find_dir dir = none →
      allocateInMemLoop fs.groups 0 = some (addr, groups1) →
      addr ≠ ROOT_INODE_INDEX →
      inodeInlineAt fs ROOT_INODE_INDEX = true →
      (DirectoryIndex.setChecksum
        ⟨di.directories ++ [(dir, addr)], di.checksum⟩).serialize.length ≤ INODE_CAPACITY →
      ∃ fs', fs.create_directory dir = .ok (fs', Directory.init) ∧
        fs'.superblock = fs.superblock ∧
        (fs'.groups.map Group.count_zeros).sum + 1 =
          (fs.groups.map Group.count_zeros).sum) := by
  refine ⟨?_, ?_, ?_⟩
  · intro fs dir name p len fs' h
    obtain ⟨fs0, rfl⟩ := add_file_ok_shape fs dir name p len fs' h
    exact save_superblock_inv fs0
  · intro fs dir name fs' h
    obtain ⟨fs0, rfl⟩ := remove_file_ok_shape fs dir name fs' h
    exact save_superblock_inv fs0
  · intro fs dir di addr groups1 hdi hfresh halloc haddr hroot hlen1
    obtain ⟨fs', heq, hsb, hgr⟩ :=
      create_directory_fresh fs dir di addr groups1 hdi hfresh halloc haddr hroot hlen1
    refine ⟨fs', heq, hsb, ?_⟩
    rw [hgr]
    exact allocateInMemLoop_zeros fs.groups 0 addr groups1 halloc

set_option maxRecDepth 40000 in
/-- C3 counterexample: on the freshly initialized image, `create_directory`
allocates the directory's inode bit but never rewrites the superblock, so
after this public mutation `free_blocks` (7) no longer equals the sum of
bitmap zeros (6). -/
theorem C3_superblock_counters_counterexample :
    (X1.create_directory [47, 120]).isOk = true ∧
    X2.superblock.free_blocks = 7 ∧
    (X2.groups.map Group.count_zeros).sum = 6 := by
  decide

set_option maxRecDepth 40000 in
/-- Witness for the amended C3 on the concrete scenario states. -/
theorem C3_superblock_counters_amended_witness :
    (X3.superblock.free_blocks = (X3.groups.map Group.count_zeros).sum ∧
      X3.superblock.group_count = X3.groups.length) ∧
    (X4.superblock.free_blocks = (X4.groups.map Group.count_zeros).sum ∧
      X4.superblock.group_count = X4.groups.length) ∧
    (∃ fs', X1.create_directory [47, 120] = .ok (fs', Directory.init) ∧
      fs'.superblock = X1.superblock ∧
      (fs'.groups.map Group.count_zeros).sum + 1 =
        (X1.groups.map Group.count_zeros).sum) :=
  ⟨C3_superblock_counters_amended.1 X2 [47, 120] [102] [10, 20, 30] 3 X3 (by rfl),
   C3_superblock_counters_amended.2.1 X3 [47, 120] [102] X4 (by rfl),
   C3_superblock_counters_amended.2.2 X1 [47, 120] DirectoryIndex.init 3
     [⟨[true, true, false, false, false, false, false, false]⟩]
     (by rfl) (by decide) (by decide) (by decide) (by decide) (by decide)⟩

set_option maxRecDepth 40000 in
/-- C5 at its failing input: after `init`, `create_directory "/x"`,
`add_file "/x" "f" [10,20,30]` and `remove_file "/x" "f"`, the
file's inode bit is clear, the directory no longer lists the file, and the
state survives reopening — but `superblock.file_count` is 1, not the 0 the
claim demands: `remove_file` never decrements it (nothing recomputes it
either: `superblock_check` touches only `group_count`, `free_blocks`,
`block_count`).  The scenario replays the code's own pipeline with the
group bitmap scaled to 8 bits. -/
theorem C5_remove_file_count_bug :
    X3.superblock.file_count = 1 ∧
    (X3.remove_file [47, 120] [102]).isOk = true ∧
    X4.superblock.file_count = 1 ∧
    X4.groups = [⟨[true, true, false, false, false, false, false, false]⟩] ∧
    (X4.get_file_data [47, 120] [102]).toOption = none ∧
    (X4.find_directory [47, 120]).toOption.map (fun p => p.1.files) = some [] ∧
    (FS.fsOpen X4.disk [7]).isOk = true ∧
    (getOkFS (FS.fsOpen X4.disk [7]) X4).superblock.file_count = 1 ∧
    (getOkFS (FS.fsOpen X4.disk [7]) X4).groups =
      [⟨[true, true, false, false, false, false, false, false]⟩] ∧
    ((getOkFS (FS.fsOpen X4.disk [7]) X4).find_directory [47, 120]).toOption.map
      (fun p => p.1.files) = some [] := by
  decide

theorem list_set_getElem_self {α : Type} (l : List α) :
    ∀ (j : Nat), (hj : j < l.length) → l.set j l[j] = l := by
  induction l with
  | nil => intro j hj; simp at hj
  | cons a as ih =>
    intro j hj
    cases j with
    | zero => simp
    | succ n =>
      simp only [List.set_cons_succ, List.getElem_cons_succ]
      rw [ih n (by simpa using hj)]

theorem save_group_superblock (fs : FS) (g : Group) (gi : Nat) :
    (fs.save_group g gi).superblock = fs.superblock := rfl

theorem save_group_inodes (fs : FS) (g : Group) (gi : Nat) :
    (fs.save_group g gi).disk.inodes = fs.disk.inodes := rfl

theorem save_group_groups (fs : FS) (g : Group) (gi : Nat) :
    (fs.save_group g gi).groups = fs.groups.set gi g := rfl

set_option maxRecDepth 4000 in
/-- C6 (amended): calling `create_directory` on a path that is already in
the index does *not* return the existing directory, and does not surface
`AlreadyExists` either: the code allocates an inode bit, notices the
duplicate (`create_dir` returns `None`), releases the speculatively
allocated bit through `release_inode` (possible because `allocate_inode`
has already saved the fresh empty inode record, so `get_inode` succeeds),
rewrites the unchanged index, and then writes and returns a *fresh empty*
`Directory::init()` at the released block.  The no-leak half of the claim
holds: the post-state's groups — hence the total count of set bitmap
bits — and its superblock are exactly the caller's. -/
theorem C6_duplicate_create_directory (fs : FS) (dir : List Nat) (di : DirectoryIndex)
    (exIdx addr : Nat) (groups1 : List Group)
    (hdi : fs.get_directory_index = .ok di)
    (hdup : di.find_dir dir = some exIdx)
    (halloc : allocateInMemLoop fs.groups 0 = some (addr, groups1))
    (haddr : addr ≠ ROOT_INODE_INDEX)
    (hroot : inodeInlineAt fs ROOT_INODE_INDEX = true)
    (hlen1 : di.setChecksum.serialize.length ≤ INODE_CAPACITY)
    (hwidth : ∀ g ∈ fs.groups, g.block_bitmap.length ≤ BLOCKS_PER_GROUP) :
    ∃ fs', fs.create_directory dir = .ok (fs', Directory.init) ∧
      fs'.superblock = fs.superblock ∧ fs'.groups = fs.groups := by
  obtain ⟨rootI, rbs, hrootrec, hrootidx, hrootraw⟩ := inodeInlineAt_spec fs _ hroot
  have halloci := allocate_inode_eq fs addr groups1 halloc
  obtain ⟨j, hj, k, hk, hfalse, hgroups1, haddrval⟩ :=
    allocateInMemLoop_some fs.groups 0 addr groups1 halloc
  have hkG : k < BLOCKS_PER_GROUP := lt_of_lt_of_le hk (hwidth _ (List.getElem_mem hj))
  have htrans : Group.translate_public_address addr = (j, k) := by
    rw [haddrval]
    simp only [Nat.zero_add]
    exact translate_create_eq j k hkG
  have hcd : di.create_dir dir addr = none := by
    unfold DirectoryIndex.create_dir
    rw [hdup]
  set fsA := setInodeRecord { fs with groups := groups1 } (Inode.new addr) with hfsA
  have hgroupsA : fsA.groups = fs.groups.set j ⟨fs.groups[j].block_bitmap.set k true⟩ := by
    rw [hfsA, setInodeRecord_groups]
    exact hgroups1
  have hjA : j < fsA.groups.length := by
    rw [hgroupsA]
    simpa using hj
  have hfalseq : (fs.groups[j].block_bitmap)[k]? = some false := by
    rw [List.getElem?_eq_getElem hk, hfalse]
  have hgrpval : (fsA.groups.get ⟨j, hjA⟩).release_one k = fs.groups[j] := by
    have h1 : fsA.groups.get ⟨j, hjA⟩ =
        ⟨fs.groups[j].block_bitmap.set k true⟩ := by
      rw [List.get_eq_getElem]
      simp only [hgroupsA]
      rw [List.getElem_set_self]
    rw [h1]
    show (⟨(fs.groups[j].block_bitmap.set k true).set k false⟩ : Group) = fs.groups[j]
    rw [set_true_set_false _ _ hk hfalseq]
  have hget : fsA.get_inode addr = .ok (Inode.new addr) := by
    rw [hfsA]
    exact get_inode_setInodeRecord_self _ _
  have hrel : fsA.release_inode addr = .ok (fsA.save_group (fs.groups[j]) j) := by
    unfold FS.release_inode
    simp only [hget, Inode.new]
    rw [htrans]
    rw [dif_pos hjA]
    rw [hgrpval]
  set fsR := fsA.save_group (fs.groups[j]) j with hfsR
  have hRrec : fsR.disk.inodes ROOT_INODE_INDEX = some rootI := by
    rw [hfsR, save_group_inodes, hfsA]
    simp only [setInodeRecord]
    rw [if_neg (fun hcon => haddr (by simpa [Inode.new] using hcon.symm))]
    exact hrootrec
  have hsdi := save_directory_index_inline fsR di rootI rbs hRrec hrootraw hlen1
  set fsB := setInodeRecord fsR (inlineInode fsR rootI di.setChecksum.serialize) with hfsB
  have hBrec : fsB.disk.inodes addr = some (Inode.new addr) := by
    rw [hfsB]
    simp only [setInodeRecord, inlineInode]
    rw [if_neg (by simpa [hrootidx] using haddr)]
    rw [hfsR, save_group_inodes, hfsA]
    simp only [setInodeRecord]
    rw [if_pos (by simp [Inode.new])]
  have hsd := save_directory_inline fsB Directory.init addr (Inode.new addr) [] hBrec
    (by simp [Inode.new]) length_serialize_init
  refine ⟨setInodeRecord fsB (inlineInode fsB (Inode.new addr) Directory.init.serialize),
    ?_, ?_, ?_⟩
  · unfold FS.create_directory
    simp only [hdi, halloci]
    rw [show (Inode.new addr).block_index = addr from rfl, hcd]
    simp only [hrel]
    simp only [hsdi]
    rw [hsd]
  · rw [setInodeRecord_superblock, hfsB, setInodeRecord_superblock, hfsR,
      save_group_superblock, hfsA, setInodeRecord_superblock]
  · rw [setInodeRecord_groups, hfsB, setInodeRecord_groups, hfsR, save_group_groups,
      hgroupsA, List.set_set]
    exact list_set_getElem_self fs.groups j hj

set_option maxRecDepth 40000 in
/-- C6 counterexample at a concrete duplicate call: on the state where
`/x` already exists and lists the file `f`, a second `create_directory "/x"`
succeeds (so no `AlreadyExists` is surfaced) and hands back a fresh empty
`Directory::init()` — not the existing directory, which lists
`[("f", 4)]`. -/
theorem C6_create_directory_counterexample :
    (X3.create_directory [47, 120]).toOption.map (fun p => p.2) = some Directory.init ∧
    Directory.init.files = [] ∧
    (X3.find_directory [47, 120]).toOption.map (fun p => p.1.files) = some [([102], 4)] := by
  decide

set_option maxRecDepth 40000 in
/-- Witness for the amended C6 at the concrete duplicate call on `X3`. -/
theorem C6_duplicate_create_directory_witness :
    ∃ fs', X3.create_directory [47, 120] = .ok (fs', Directory.init) ∧
      fs'.superblock = X3.superblock ∧ fs'.groups = X3.groups :=
  C6_duplicate_create_directory X3 [47, 120]
    ⟨[([47, 120], 3)], 914836821⟩ 3 5
    [⟨[true, true, true, true, false, false, false, false]⟩]
    (by rfl) (by decide) (by decide) (by decide) (by decide) (by decide) (by decide)

/-- The bit `i` of group `gi` of a group vector, if both exist. -/
def bitAt (gs : List Group) (gi i : Nat) : Option Bool :=
  match gs[gi]? with
  | some g => g.block_bitmap[i]?
  | none => none

/-- The released filesystem state produced by `release_inode_data`. -/
def releasedFS (fs : FS) (gs1 : List Group) : FS :=
  { fs with groups := gs1, disk := diskSaveAllGroups fs.disk gs1 }

theorem release_inode_data_eq (fs : FS) (ptrs : List (Nat × Nat)) (gs1 : List Group)
    (hrel : releaseLoop fs.groups ptrs = .ok gs1) :
    fs.release_inode_data ptrs = .ok (releasedFS fs gs1) := by
  unfold FS.release_inode_data releasedFS
  rw [hrel]

theorem foldl_setfalse_not_mem (idxs : List Nat) : ∀ (l : List Bool) (i : Nat), i ∉ idxs →
    (idxs.foldl (fun bm x => bm.set x false) l)[i]? = l[i]? := by
  induction idxs with
  | nil => intro l i _; rfl
  | cons x rest ih =>
    intro l i hni
    simp only [List.foldl_cons]
    rw [ih (l.set x false) i (fun hc => hni (List.mem_cons_of_mem x hc))]
    refine List.getElem?_set_ne (fun hc => hni ?_)
    rw [← hc]
    exact List.mem_cons_self x rest

theorem foldl_setfalse_mem (idxs : List Nat) : ∀ (l : List Bool) (i : Nat), i ∈ idxs →
    (idxs.foldl (fun bm x => bm.set x false) l)[i]? ≠ some true := by
  induction idxs with
  | nil => intro l i hm; simp at hm
  | cons x rest ih =>
    intro l i hm
    simp only [List.foldl_cons]
    by_cases hr : i ∈ rest
    · exact ih (l.set x false) i hr
    · have hix : i = x := by
        rcases List.mem_cons.mp hm with h | h
        · exact h
        · exact absurd h hr
      rw [foldl_setfalse_not_mem rest (l.set x false) i hr, hix]
      by_cases hxl : x < l.length
      · rw [List.getElem?_set_self hxl]
        simp
      · rw [List.getElem?_eq_none (by simp; omega)]
        simp

theorem releaseLoop_ne_true (ps : List (Nat × Nat)) : ∀ (groups gs' : List Group),
    releaseLoop groups ps = .ok gs' →
    ((∀ gi i, bitAt groups gi i ≠ some true → bitAt gs' gi i ≠ some true) ∧
     (∀ bl ∈ ps, ∀ o, o < bl.2 →
       bitAt gs' (Group.translate_public_address bl.1).1
         ((Group.translate_public_address bl.1).2 + o) ≠ some true)) := by
  induction ps with
  | nil =>
    intro groups gs' h
    have hgs : gs' = groups := by
      simp only [releaseLoop] at h
      exact (Except.ok.injEq _ _).mp h.symm
    subst hgs
    exact ⟨fun _ _ hh => hh, by simp⟩
  | cons bl rest ih =>
    intro groups gs' h
    obtain ⟨bi, len⟩ := bl
    simp only [releaseLoop] at h
    split at h
    case isTrue ht =>
      obtain ⟨P1, P2⟩ := ih _ _ h
      have hsome : groups[(Group.translate_public_address bi).1]? =
          some (groups.get ⟨(Group.translate_public_address bi).1, ht⟩) := by
        rw [List.get_eq_getElem]
        exact List.getElem?_eq_getElem ht
      have step1 : ∀ gi i, bitAt groups gi i ≠ some true →
          bitAt (groups.set (Group.translate_public_address bi).1
            ((groups.get ⟨(Group.translate_public_address bi).1, ht⟩).release_data_region
              (Group.translate_public_address bi).2 len)) gi i ≠ some true := by
        intro gi i hh
        by_cases hgi : gi = (Group.translate_public_address bi).1
        · subst hgi
          unfold bitAt
          rw [List.getElem?_set_self ht]
          show ((Group.release_data_region _ _ _).block_bitmap)[i]? ≠ some true
          unfold Group.release_data_region
          by_cases hmem : i ∈ List.range' (Group.translate_public_address bi).2 len
          · exact foldl_setfalse_mem _ _ i hmem
          · rw [foldl_setfalse_not_mem _ _ i hmem]
            unfold bitAt at hh
            rw [hsome] at hh
            exact hh
        · unfold bitAt
          rw [List.getElem?_set_ne (fun hc => hgi hc.symm)]
          exact hh
      have hhead : ∀ o, o < len →
          bitAt (groups.set (Group.translate_public_address bi).1
            ((groups.get ⟨(Group.translate_public_address bi).1, ht⟩).release_data_region
              (Group.translate_public_address bi).2 len))
            (Group.translate_public_address bi).1
            ((Group.translate_public_address bi).2 + o) ≠ some true := by
        intro o ho
        unfold bitAt
        rw [List.getElem?_set_self ht]
        show ((Group.release_data_region _ _ _).block_bitmap)[_]? ≠ some true
        unfold Group.release_data_region
        exact foldl_setfalse_mem _ _ _
          (List.mem_range'_1.mpr ⟨Nat.le_add_right _ _, by omega⟩)
      refine ⟨fun gi i hh => P1 gi i (step1 gi i hh), ?_⟩
      intro bl' hmem o ho
      rcases List.mem_cons.mp hmem with heq | hmem'
      · subst heq
        exact P1 _ _ (hhead o ho)
      · exact P2 bl' hmem' o ho
    case isFalse => exact Except.noConfusion h

theorem write_inode_data_ptrs_inline (fs : FS) (inode : Inode) (p : List Nat)
    (ptrs : List (Nat × Nat)) (gs1 : List Group)
    (hptrs : inode.data = .DirectPointers ptrs)
    (hrel : releaseLoop fs.groups ptrs = .ok gs1)
    (hlen : p.length ≤ INODE_CAPACITY) :
    fs.write_inode_data inode p p.length =
      .ok (setInodeRecord (releasedFS fs gs1) (inlineInode (releasedFS fs gs1) inode p),
           inlineInode (releasedFS fs gs1) inode p) := by
  have henc : (encrypt p (releasedFS fs gs1).lookup_table).length = p.length :=
    encrypt_length p _
  unfold FS.write_inode_data
  rw [hptrs]
  simp only [release_inode_data_eq fs ptrs gs1 hrel]
  simp only [if_pos hlen, henc]
  rw [if_neg (by omega : ¬p.length ≠ p.length),
    if_neg (by omega : ¬INODE_CAPACITY < p.length)]
  rw [save_inode_eq]
  · rfl
  · have hc : INODE_CAPACITY = 4047 := rfl
    have hb : BLOCK_SIZE = 4096 := rfl
    simp only [Inode.serializedSize, henc]
    omega

theorem save_superblock_groups (fs : FS) : (fs.save_superblock).groups = fs.groups := rfl

set_option maxRecDepth 4000 in
/-- C7: when `add_file` overwrites an existing file whose inode body is
`DirectPointers` (a Regions file) with an inline-sized payload,
`write_inode_data` first hands every old region to the group allocator's
release path: in the post-state every bitmap bit of every old region is
clear, and — because `add_file` ends in `save_superblock`, which recomputes
the counter — `free_blocks` equals the sum of bitmap zeros, reflecting the
release. -/
theorem C7_overwrite_releases_regions (fs : FS) (dir name payload : List Nat)
    (d : Directory) (dirIdx fileIdx : Nat) (fi : Inode) (ptrs : List (Nat × Nat))
    (gs1 : List Group)
    (hfd : fs.find_directory dir = .ok (d, dirIdx))
    (hfile : d.get_file name = some fileIdx)
    (hrec : fs.disk.inodes fileIdx = some fi)
    (hptrs : fi.data = .DirectPointers ptrs)
    (hrel : releaseLoop fs.groups ptrs = .ok gs1)
    (hlen : payload.length ≤ INODE_CAPACITY) :
    ∃ fs', fs.add_file dir name payload payload.length = .ok fs' ∧
      fs'.groups = gs1 ∧
      (∀ bl ∈ ptrs, ∀ o, o < bl.2 →
        bitAt fs'.groups (Group.translate_public_address bl.1).1
          ((Group.translate_public_address bl.1).2 + o) ≠ some true) ∧
      fs'.superblock.free_blocks = (fs'.groups.map Group.count_zeros).sum := by
  have hget : fs.get_inode fileIdx = .ok fi := by
    unfold FS.get_inode
    rw [hrec]
  have hw := write_inode_data_ptrs_inline fs fi payload ptrs gs1 hptrs hrel hlen
  refine ⟨(setInodeRecord (releasedFS fs gs1)
      (inlineInode (releasedFS fs gs1) fi payload)).save_superblock, ?_, ?_, ?_, ?_⟩
  · unfold FS.add_file
    simp only [hfd, hfile, hget, hw]
  · rw [save_superblock_groups, setInodeRecord_groups]
    rfl
  · intro bl hmem o ho
    rw [save_superblock_groups, setInodeRecord_groups]
    show bitAt gs1 _ _ ≠ some true
    exact (releaseLoop_ne_true ptrs fs.groups gs1 hrel).2 bl hmem o ho
  · exact (save_superblock_inv _).1

/-- A concrete pre-state for the overwrite scenario: `X3` with the file
`f`'s inode record replaced by a two-block `DirectPointers` body at public
address 7 (group 0, bits 5 and 6) and those data bits set in the bitmap. -/
def fiPtr : Inode := ⟨4, now, now, 2 * BLOCK_SIZE, crc32 [], .DirectPointers [(7, 2)]⟩

def Y0 : FS :=
  { setInodeRecord X3 fiPtr with
      groups := [⟨[true, true, true, false, false, true, true, false]⟩] }

set_option maxRecDepth 40000 in
/-- Witness for C7 at the concrete overwrite of the two-block file with a
3-byte inline payload. -/
theorem C7_overwrite_releases_regions_witness :
    ∃ fs', Y0.add_file [47, 120] [102] [9, 8, 7] ([9, 8, 7] : List Nat).length = .ok fs' ∧
      fs'.groups = [⟨[true, true, true, false, false, false, false, false]⟩] ∧
      (∀ bl ∈ [((7 : Nat), (2 : Nat))], ∀ o, o < bl.2 →
        bitAt fs'.groups (Group.translate_public_address bl.1).1
          ((Group.translate_public_address bl.1).2 + o) ≠ some true) ∧
      fs'.superblock.free_blocks = (fs'.groups.map Group.count_zeros).sum :=
  C7_overwrite_releases_regions Y0 [47, 120] [102] [9, 8, 7]
    ⟨[([102], 4)], 2077607535⟩ 3 4 fiPtr [(7, 2)]
    [⟨[true, true, true, false, false, false, false, false]⟩]
    (by rfl) (by decide) (by rfl) (by rfl) (by rfl) (by decide)

theorem add_group_groups (fs : FS) (g : Group) :
    (fs.add_group g).groups = fs.groups ++ [g] := rfl

theorem add_group_free (fs : FS) (g : Group) :
    (fs.add_group g).superblock.free_blocks =
      ((fs.groups ++ [g]).map Group.count_zeros).sum := by
  simp [FS.add_group, FS.save_superblock, FS.superblock_check, Superblock.setChecksum]

theorem count_replicate_false : ∀ n : Nat, (List.replicate n false).count false = n := by
  intro n
  induction n with
  | zero => rfl
  | succ m ih =>
    rw [List.replicate_succ, List.count_cons, ih]
    simp

theorem count_zeros_init : Group.count_zeros Group.init = BLOCKS_PER_GROUP := by
  show (List.replicate (BLOCK_SIZE * 8) false).count false = BLOCKS_PER_GROUP
  rw [count_replicate_false]
  rfl

/-- One round of the `while free_blocks < need` loop adds a fresh group of
`BLOCKS_PER_GROUP` zero bits and recomputes the counter, so from any state
whose counter is fresh, `fuel` rounds reach `need ≤ BLOCKS_PER_GROUP * fuel
+ free_blocks`. -/
theorem addGroupsWhile_isSome (fuel : Nat) : ∀ (fs : FS) (need : Nat),
    fs.superblock.free_blocks = (fs.groups.map Group.count_zeros).sum →
    need ≤ BLOCKS_PER_GROUP * fuel + fs.superblock.free_blocks →
    (FS.addGroupsWhile fuel fs need).isSome = true := by
  induction fuel with
  | zero =>
    intro fs need _ hle
    unfold FS.addGroupsWhile
    rw [if_neg (by omega)]
    rfl
  | succ fuel ih =>
    intro fs need hfresh hle
    unfold FS.addGroupsWhile
    by_cases hlt : fs.superblock.free_blocks < need
    · rw [if_pos hlt]
      apply ih
      · rw [add_group_free, add_group_groups]
      · rw [add_group_free, List.map_append, List.sum_append]
        rw [List.map_cons, List.map_nil, List.sum_cons, List.sum_nil]
        rw [count_zeros_init]
        rw [hfresh] at hle
        have hB : BLOCKS_PER_GROUP = 32768 := rfl
        rw [hB] at hle ⊢
        omega
    · rw [if_neg hlt]
      rfl

/-- `need + 1` rounds of fuel always suffice for the group-adding loop of
`write_inode_data` (promised next to `addGroupsWhile`). -/
theorem addGroupsWhile_total (fs : FS) (need : Nat) :
    (FS.addGroupsWhile (need + 1) fs need).isSome = true := by
  unfold FS.addGroupsWhile
  by_cases hlt : fs.superblock.free_blocks < need
  · rw [if_pos hlt]
    apply addGroupsWhile_isSome
    · rw [add_group_free, add_group_groups]
    · rw [add_group_free, List.map_append, List.sum_append]
      rw [List.map_cons, List.map_nil, List.sum_cons, List.sum_nil]
      rw [count_zeros_init]
      have hB : BLOCKS_PER_GROUP = 32768 := rfl
      rw [hB]
      omega
  · rw [if_neg hlt]
    rfl

/-- C4 (amended): no `FragmentationExhausted` error exists anywhere in the
code.  When a payload beyond `INODE_CAPACITY` fragments into so many runs
that the pointer inode no longer fits its block (more than 506 runs, while
`INODE_MAX_REGION = 500` only caps each *per-group* `allocate_region`
call), the write dies at the `assert!(serialized.len() <= BLOCK_SIZE)`
panic inside `Inode::serialize_into` — a process abort, not a surfaced
error. -/
theorem C4_fragmentation_aborts (fs : FS) (inode : Inode) (p bs : List Nat) (data_len : Nat)
    (hraw : inode.data = .Raw bs)
    (hbs : 44 + bs.length ≤ BLOCK_SIZE)
    (hcap : INODE_CAPACITY < data_len)
    (hfree : blocks_to_allocate data_len ≤ fs.superblock.free_blocks)
    (hrs : BLOCK_SIZE < 44 + 8 *
      (allocGroupsLoop INODE_MAX_REGION fs.groups 0 (blocks_to_allocate data_len)
        (setInodeRecord fs
          { inode with size := data_len, last_modified := now }).disk).2.2.1.length) :
    fs.write_inode_data inode p data_len = .error .abort := by
  obtain ⟨bi, cr, lm, sz, dc, da⟩ := inode
  dsimp only at hraw hrs
  subst hraw
  have hnotle : ¬ data_len ≤ INODE_CAPACITY := by omega
  have hiS : ((⟨bi, cr, now, data_len, dc, .Raw bs⟩ : Inode)).serializedSize ≤ BLOCK_SIZE := by
    rw [serializedSize_raw _ bs rfl]
    exact hbs
  have hsave1 := save_inode_eq fs ⟨bi, cr, lm, data_len, dc, .Raw bs⟩ hiS
  dsimp only at hsave1
  have haddw : FS.addGroupsWhile (blocks_to_allocate data_len + 1)
      (setInodeRecord fs ⟨bi, cr, now, data_len, dc, .Raw bs⟩)
      (blocks_to_allocate data_len) =
      some (setInodeRecord fs ⟨bi, cr, now, data_len, dc, .Raw bs⟩) := by
    unfold FS.addGroupsWhile
    rw [if_neg (by rw [setInodeRecord_superblock]; omega)]
  unfold FS.write_inode_data
  dsimp only
  rw [if_neg hnotle]
  rw [hsave1]
  dsimp only
  rw [haddw]
  dsimp only
  unfold FS.save_inode
  rw [if_neg (by
    dsimp only
    simp only [Inode.serializedSize]
    rw [setInodeRecord_groups]
    omega)]

/-- A deliberately fragmented two-group state: every even bitmap index is
free and isolated (500 one-block runs available in group 0, 7 in group 1),
with a consistent `free_blocks` ≥ the 507 blocks a 507-block payload
needs. -/
def altBitmap (n : Nat) : List Bool := (List.range n).map (fun i => i % 2 == 1)

def Z0 : FS :=
  { superblock := { Superblock.new with free_blocks := 1000 }
    groups := [⟨altBitmap 1000⟩, ⟨altBitmap 14⟩]
    lookup_table := [7]
    disk := { superblock := none, groupBitmaps := fun _ => none,
              inodes := fun _ => none, bytes := fun _ => 0 } }

set_option maxRecDepth 40000 in
/-- C4 counterexample: on the fragmented state a 507-block write gathers
507 one-block runs (the per-call budget of 500 does not stop the total),
the pointer inode needs `44 + 8 * 507 = 4100 > 4096` bytes, and the
operation aborts — no `FragmentationExhausted` (no such error exists in
the code) and no ordinary error return. -/
theorem C4_fragmentation_counterexample :
    (allocGroupsLoop INODE_MAX_REGION Z0.groups 0
      (blocks_to_allocate (507 * 4096)) Z0.disk).2.2.1.length = 507 ∧
    Z0.write_inode_data (Inode.new 100) [] (507 * 4096) = .error .abort :=
  ⟨by decide, by rfl⟩

set_option maxRecDepth 40000 in
/-- Witness for the amended C4 at the concrete fragmented state. -/
theorem C4_fragmentation_aborts_witness :
    Z0.write_inode_data (Inode.new 100) [] (507 * 4096) = .error .abort :=
  C4_fragmentation_aborts Z0 (Inode.new 100) [] [] (507 * 4096)
    (by rfl) (by decide) (by decide) (by decide) (by decide)

theorem writeBytesFn_frame (bytes : List Nat) : ∀ (f : Nat → Nat) (off a : Nat),
    a < off ∨ off + bytes.length ≤ a → writeBytesFn f off bytes a = f a := by
  induction bytes with
  | nil => intro f off a _; rfl
  | cons b rest ih =>
    intro f off a ha
    simp only [writeBytesFn]
    rw [ih _ (off + 1) a (by simp at ha; omega)]
    rw [if_neg (by simp at ha; omega)]

theorem writeBytesFn_get (bytes : List Nat) : ∀ (f : Nat → Nat) (off i : Nat)
    (hi : i < bytes.length), writeBytesFn f off bytes (off + i) = bytes[i] := by
  induction bytes with
  | nil => intro f off i hi; simp at hi
  | cons b rest ih =>
    intro f off i hi
    simp only [writeBytesFn]
    cases i with
    | zero =>
      rw [writeBytesFn_frame rest _ (off + 1) (off + 0) (by omega)]
      simp
    | succ n =>
      have : off + (n + 1) = (off + 1) + n := by omega
      rw [this, ih _ (off + 1) n (by simpa using hi)]
      simp

theorem readBytesFn_congr (f g : Nat → Nat) (off len : Nat)
    (h : ∀ a, off ≤ a → a < off + len → f a = g a) :
    readBytesFn f off len = readBytesFn g off len := by
  unfold readBytesFn
  apply List.map_congr_left
  intro i hi
  rw [List.mem_range] at hi
  exact h (off + i) (by omega) (by omega)

theorem readBytesFn_writeBytesFn (f : Nat → Nat) (off : Nat) (bytes : List Nat) :
    readBytesFn (writeBytesFn f off bytes) off bytes.length = bytes := by
  apply List.ext_getElem
  · simp [readBytesFn]
  · intro i h1 h2
    simp only [readBytesFn, List.getElem_map, List.getElem_range]
    exact writeBytesFn_get bytes f off i h2

theorem pos_le_pos {b b' : Nat} (h : b ≤ b') :
    block_seek_position b ≤ block_seek_position b' :=
  Nat.mul_le_mul_right _ h

theorem pos_add (b k : Nat) :
    block_seek_position (b + k) = block_seek_position b + k * BLOCK_SIZE := by
  unfold block_seek_position
  ring

/-- One region's write loop: with the payload stream tracking `data_left`
exactly, the loop never errors, consumes `min data_left (count * BLOCK_SIZE)`
bytes, touches only the bytes of blocks `b .. b + count`, and any disk
agreeing with its output there reads the consumed prefix straight back. -/
theorem writeBlocksLoop_spec (c : Nat) : ∀ (table : List Nat) (d : Nat → Nat) (b : Nat)
    (payload : List Nat) (dl : Nat), payload.length = dl →
    ∃ d1, writeBlocksLoop table d b c payload dl =
        .ok (d1, payload.drop (min dl (c * BLOCK_SIZE)), dl - min dl (c * BLOCK_SIZE)) ∧
      (∀ a, a < block_seek_position b ∨ block_seek_position (b + c) ≤ a → d1 a = d a) ∧
      (∀ dF : Nat → Nat,
        (∀ a, block_seek_position b ≤ a → a < block_seek_position (b + c) → dF a = d1 a) →
        readBlocksLoop table dF b c dl =
          (payload.take (min dl (c * BLOCK_SIZE)), dl - min dl (c * BLOCK_SIZE))) := by
  induction c with
  | zero =>
    intro table d b payload dl hlen
    refine ⟨d, ?_, ?_, ?_⟩
    · simp [writeBlocksLoop]
    · intro a _; rfl
    · intro dF _
      simp [readBlocksLoop]
  | succ c ih =>
    intro table d b payload dl hlen
    have hB : BLOCK_SIZE = 4096 := rfl
    set sz := if dl < BLOCK_SIZE then dl else BLOCK_SIZE with hsz
    have hszle : sz ≤ dl := by
      rw [hsz]; split
      · omega
      · omega
    have hszB : sz ≤ BLOCK_SIZE := by
      rw [hsz]; split
      · omega
      · omega
    have hchunk : (payload.take sz).length = sz := by
      rw [List.length_take]; omega
    have henc : (encrypt (payload.take sz) table).length = sz := by
      rw [encrypt_length, hchunk]
    obtain ⟨d1, heq, hfr, hrd⟩ := ih table
      (writeBytesFn d (block_seek_position b) (encrypt (payload.take sz) table))
      (b + 1) (payload.drop sz) (dl - sz) (by rw [List.length_drop]; omega)
    have hmin : sz + min (dl - sz) (c * BLOCK_SIZE) = min dl ((c + 1) * BLOCK_SIZE) := by
      rw [hB] at hsz ⊢
      by_cases hc : dl < 4096
      · rw [hsz, if_pos hc]
        omega
      · rw [hsz, if_neg hc]
        have : (c + 1) * 4096 = c * 4096 + 4096 := by ring
        omega
    have hidx : b + (c + 1) = b + 1 + c := by omega
    refine ⟨d1, ?_, ?_, ?_⟩
    · simp only [writeBlocksLoop]
      rw [← hsz]
      rw [if_neg (by rw [hchunk]; omega)]
      rw [heq, List.drop_drop]
      have e2 : dl - sz - min (dl - sz) (c * BLOCK_SIZE) =
          dl - min dl ((c + 1) * BLOCK_SIZE) := by
        omega
      rw [hmin, e2]
    · intro a ha
      rw [hfr a (by
        rcases ha with h | h
        · exact Or.inl (lt_of_lt_of_le h (pos_le_pos (by omega)))
        · rw [hidx] at h
          exact Or.inr h)]
      refine writeBytesFn_frame _ _ _ a ?_
      rcases ha with h | h
      · exact Or.inl h
      · right
        rw [henc]
        calc block_seek_position b + sz
            ≤ block_seek_position (b + 1) := by rw [pos_add]; omega
          _ ≤ block_seek_position (b + (c + 1)) := pos_le_pos (by omega)
          _ ≤ a := h
    · intro dF hagree
      have hagree1 : ∀ a, block_seek_position (b + 1) ≤ a →
          a < block_seek_position (b + 1 + c) → dF a = d1 a := by
        intro a h1 h2
        refine hagree a (le_trans (pos_le_pos (by omega)) h1) ?_
        rw [hidx]
        exact h2
      have hck : readBytesFn dF (block_seek_position b) sz =
          encrypt (payload.take sz) table := by
        rw [readBytesFn_congr dF
          (writeBytesFn d (block_seek_position b) (encrypt (payload.take sz) table))
          (block_seek_position b) sz (by
            intro a h1 h2
            rw [hagree a h1 (lt_of_lt_of_le h2 (by
              calc block_seek_position b + sz
                  ≤ block_seek_position (b + 1) := by rw [pos_add]; omega
                _ ≤ block_seek_position (b + (c + 1)) := pos_le_pos (by omega)))]
            exact hfr a (Or.inl (by
              calc a < block_seek_position b + sz := h2
                _ ≤ block_seek_position (b + 1) := by rw [pos_add]; omega)))]
        have hrw := readBytesFn_writeBytesFn d (block_seek_position b)
          (encrypt (payload.take sz) table)
        rw [henc] at hrw
        exact hrw
      simp only [readBlocksLoop]
      rw [← hsz]
      rw [hck, encrypt_encrypt]
      rw [hrd dF hagree1]
      have e3 : payload.take sz ++ (payload.drop sz).take (min (dl - sz) (c * BLOCK_SIZE)) =
          payload.take (min dl ((c + 1) * BLOCK_SIZE)) := by
        rw [← List.take_add, hmin]
      have e4 : dl - sz - min (dl - sz) (c * BLOCK_SIZE) =
          dl - min dl ((c + 1) * BLOCK_SIZE) := by
        omega
      rw [e3, e4]

/-- Total byte capacity of a run list. -/
def rangeCapacity (rs : List (Nat × Nat)) : Nat :=
  (rs.map (fun r => r.2 * BLOCK_SIZE)).sum

/-- The runs cover pairwise disjoint block intervals. -/
def rangesDisjoint (rs : List (Nat × Nat)) : Prop :=
  rs.Pairwise (fun r s => ∀ x, ¬(r.1 ≤ x ∧ x < r.1 + r.2 ∧ s.1 ≤ x ∧ x < s.1 + s.2))

/-- The full write loop over a disjoint run list: never errors, consumes
`min data_left capacity` bytes of the stream, touches only bytes inside the
runs, and any disk agreeing with its output on the runs reads the consumed
prefix straight back with the same `data_left` bookkeeping. -/
theorem writeRangesLoop_spec (rs : List (Nat × Nat)) : ∀ (table : List Nat) (d : Nat → Nat)
    (payload : List Nat) (dl : Nat), payload.length = dl →
    rangesDisjoint rs →
    ∃ d1, writeRangesLoop table d rs payload dl =
        .ok (d1, payload.drop (min dl (rangeCapacity rs)), dl - min dl (rangeCapacity rs)) ∧
      (∀ a, (∀ r ∈ rs, a < block_seek_position r.1 ∨ block_seek_position (r.1 + r.2) ≤ a) →
        d1 a = d a) ∧
      (∀ dF : Nat → Nat,
        (∀ a, (∃ r ∈ rs, block_seek_position r.1 ≤ a ∧ a < block_seek_position (r.1 + r.2)) →
          dF a = d1 a) →
        readPtrsLoop table dF rs dl =
          (payload.take (min dl (rangeCapacity rs)), dl - min dl (rangeCapacity rs))) := by
  induction rs with
  | nil =>
    intro table d payload dl hlen _
    refine ⟨d, ?_, ?_, ?_⟩
    · simp [writeRangesLoop, rangeCapacity]
    · intro a _; rfl
    · intro dF _
      simp [readPtrsLoop, rangeCapacity]
  | cons r rest ih =>
    intro table d payload dl hlen hdisj
    obtain ⟨b, cnt⟩ := r
    rw [rangesDisjoint, List.pairwise_cons] at hdisj
    obtain ⟨hsep, hdisj'⟩ := hdisj
    have hB : BLOCK_SIZE = 4096 := rfl
    obtain ⟨d1, heq1, hfr1, hrd1⟩ := writeBlocksLoop_spec cnt table d b payload dl hlen
    obtain ⟨d2, heq2, hfr2, hrd2⟩ := ih table d1 (payload.drop (min dl (cnt * BLOCK_SIZE)))
      (dl - min dl (cnt * BLOCK_SIZE)) (by rw [List.length_drop]; omega) hdisj'
    have hcap : rangeCapacity ((b, cnt) :: rest) = cnt * BLOCK_SIZE + rangeCapacity rest := by
      simp [rangeCapacity]
    have hmin2 : min dl (cnt * BLOCK_SIZE) +
        min (dl - min dl (cnt * BLOCK_SIZE)) (rangeCapacity rest) =
        min dl (cnt * BLOCK_SIZE + rangeCapacity rest) := by
      rw [hB]
      omega
    -- byte-window separation of the head run from every rest run
    have hbyte : ∀ s ∈ rest, ∀ a, block_seek_position b ≤ a →
        a < block_seek_position (b + cnt) →
        a < block_seek_position s.1 ∨ block_seek_position (s.1 + s.2) ≤ a := by
      intro s hs a h1 h2
      by_cases hs2 : s.2 = 0
      · by_cases hlt : a < block_seek_position s.1
        · exact Or.inl hlt
        · right
          rw [hs2, Nat.add_zero]
          omega
      · have hcnt : cnt ≠ 0 := by
          intro hc
          rw [hc, Nat.add_zero] at h2
          omega
        have hbd : b + cnt ≤ s.1 ∨ s.1 + s.2 ≤ b := by
          by_contra hcon
          push_neg at hcon
          exact hsep s hs (max b s.1) (by omega)
        rcases hbd with h | h
        · exact Or.inl (lt_of_lt_of_le h2 (pos_le_pos h))
        · exact Or.inr (le_trans (pos_le_pos h) h1)
    refine ⟨d2, ?_, ?_, ?_⟩
    · simp only [writeRangesLoop]
      rw [heq1]
      dsimp only
      rw [heq2, List.drop_drop]
      have e2 : dl - min dl (cnt * BLOCK_SIZE) -
          min (dl - min dl (cnt * BLOCK_SIZE)) (rangeCapacity rest) =
          dl - min dl (rangeCapacity ((b, cnt) :: rest)) := by
        rw [hcap, hB]
        omega
      rw [hmin2, ← hcap, e2]
    · intro a ha
      rw [hfr2 a (fun r' hr' => ha r' (List.mem_cons_of_mem _ hr'))]
      exact hfr1 a (ha (b, cnt) (List.mem_cons_self _ _))
    · intro dF hagree
      simp only [readPtrsLoop]
      have hd1agree : ∀ a, block_seek_position b ≤ a →
          a < block_seek_position (b + cnt) → dF a = d1 a := by
        intro a h1 h2
        rw [hagree a ⟨(b, cnt), List.mem_cons_self _ _, h1, h2⟩]
        exact hfr2 a (fun s hs => hbyte s hs a h1 h2)
      rw [hrd1 dF hd1agree]
      rw [hrd2 dF (fun a ⟨s, hs, h1, h2⟩ =>
        hagree a ⟨s, List.mem_cons_of_mem _ hs, h1, h2⟩)]
      have e3 : payload.take (min dl (cnt * BLOCK_SIZE)) ++
          (payload.drop (min dl (cnt * BLOCK_SIZE))).take
            (min (dl - min dl (cnt * BLOCK_SIZE)) (rangeCapacity rest)) =
          payload.take (min dl (rangeCapacity ((b, cnt) :: rest))) := by
        rw [← List.take_add, hmin2, hcap]
      have e4 : dl - min dl (cnt * BLOCK_SIZE) -
          min (dl - min dl (cnt * BLOCK_SIZE)) (rangeCapacity rest) =
          dl - min dl (rangeCapacity ((b, cnt) :: rest)) := by
        rw [hcap, hB]
        omega
      rw [e3, e4]

theorem create_zero_eq (g : Nat) : Group.create_public_address g 0 = g * 32769 + 2 := by
  rw [create_public_address_eq]
  have hG : BLOCKS_PER_GROUP = 32768 := by decide
  rw [hG]

/-- `allocate_region` produces sorted in-group block addresses (restated
from the allocation-loop master lemma for use by the round-trip proof). -/
theorem allocate_region_blocks (g : Group) (gi want maxr : Nat)
    (g' : Group) (rs : List (Nat × Nat)) (rem : Nat)
    (h : g.allocate_region gi want maxr = (g', rs, rem)) :
    List.Sorted (· < ·) (blocksOf rs) ∧
    (∀ a ∈ blocksOf rs, Group.create_public_address gi 0 ≤ a ∧
      a < Group.create_public_address gi 0 + g.block_bitmap.length) ∧
    (blocksOf rs).length + rem = want ∧ rem ≤ want := by
  rcases hrr : Group.allocRegionLoop gi g.block_bitmap 0 want maxr none []
    with ⟨rbits, rregs, rrem⟩
  simp only [Group.allocate_region, hrr] at h
  obtain ⟨rfl, rfl, rfl⟩ := h
  obtain ⟨l1, _, ⟨new, hnew, hblocks⟩, l4, l5, _⟩ :=
    allocRegionLoop_spec gi maxr g.block_bitmap 0 want none [] rbits rs rem hrr
      (by intro s l hc; cases hc)
  rw [List.nil_append] at hnew
  subst hnew
  rw [optRegionBlocks, List.nil_append] at hblocks
  obtain ⟨hbnd, hsort⟩ := claimedAddrs_bounds_sorted gi g.block_bitmap 0 rbits
  rw [hblocks]
  exact ⟨hsort, hbnd, l5, l4⟩

/-- The cross-group allocation loop: the collected runs cover sorted,
group-bounded block addresses, exactly `want - left` of them, and the
threaded disk changes only its group-bitmap blocks. -/
theorem allocGroupsLoop_spec (maxr : Nat) (groups : List Group) : ∀ (gi0 want : Nat) (dk : Disk),
    (∀ g ∈ groups, g.block_bitmap.length ≤ BLOCKS_PER_GROUP) →
    List.Sorted (· < ·) (blocksOf (allocGroupsLoop maxr groups gi0 want dk).2.2.1) ∧
    (∀ a ∈ blocksOf (allocGroupsLoop maxr groups gi0 want dk).2.2.1,
      Group.create_public_address gi0 0 ≤ a ∧
      a < Group.create_public_address (gi0 + groups.length) 0) ∧
    (blocksOf (allocGroupsLoop maxr groups gi0 want dk).2.2.1).length +
      (allocGroupsLoop maxr groups gi0 want dk).2.2.2 = want ∧
    (allocGroupsLoop maxr groups gi0 want dk).2.2.2 ≤ want ∧
    (allocGroupsLoop maxr groups gi0 want dk).2.1.bytes = dk.bytes ∧
    (allocGroupsLoop maxr groups gi0 want dk).2.1.inodes = dk.inodes ∧
    (allocGroupsLoop maxr groups gi0 want dk).2.1.superblock = dk.superblock := by
  induction groups with
  | nil =>
    intro gi0 want dk _
    simp [allocGroupsLoop, blocksOf]
  | cons g rest ih =>
    intro gi0 want dk hwidth
    by_cases hw : want > 0
    · rcases hall : g.allocate_region gi0 want maxr with ⟨g1, rs1, rem1⟩
      obtain ⟨hs1, hb1, hl1, hr1⟩ := allocate_region_blocks g gi0 want maxr g1 rs1 rem1 hall
      have heval : allocGroupsLoop maxr (g :: rest) gi0 want dk =
          (g1 :: (allocGroupsLoop maxr rest (gi0 + 1) rem1
              { dk with groupBitmaps := fun i =>
                  if i = gi0 then some g1.block_bitmap else dk.groupBitmaps i }).1,
            (allocGroupsLoop maxr rest (gi0 + 1) rem1
              { dk with groupBitmaps := fun i =>
                  if i = gi0 then some g1.block_bitmap else dk.groupBitmaps i }).2.1,
            rs1 ++ (allocGroupsLoop maxr rest (gi0 + 1) rem1
              { dk with groupBitmaps := fun i =>
                  if i = gi0 then some g1.block_bitmap else dk.groupBitmaps i }).2.2.1,
            (allocGroupsLoop maxr rest (gi0 + 1) rem1
              { dk with groupBitmaps := fun i =>
                  if i = gi0 then some g1.block_bitmap else dk.groupBitmaps i }).2.2.2) := by
        simp only [allocGroupsLoop, if_pos hw, hall]
      obtain ⟨is1, ib1, il1, ir1, idb, idi, ids⟩ := ih (gi0 + 1) rem1
        { dk with groupBitmaps := fun i =>
            if i = gi0 then some g1.block_bitmap else dk.groupBitmaps i }
        (fun g hg => hwidth g (List.mem_cons_of_mem _ hg))
      rw [heval]
      have hglen : g.block_bitmap.length ≤ BLOCKS_PER_GROUP :=
        hwidth g (List.mem_cons_self _ _)
      have hG : BLOCKS_PER_GROUP = 32768 := by decide
      rw [hG] at hglen
      have hcross : ∀ a ∈ blocksOf rs1,
          a < Group.create_public_address (gi0 + 1) 0 := by
        intro a ha
        have hup := (hb1 a ha).2
        simp only [create_zero_eq] at hup ⊢
        omega
      refine ⟨?_, ?_, ?_, ?_, ?_, ?_, ?_⟩
      · rw [blocksOf_append]
        show List.Pairwise _ _
        rw [List.pairwise_append]
        refine ⟨hs1, is1, ?_⟩
        intro a ha b hb
        exact lt_of_lt_of_le (hcross a ha) ((ib1 b hb).1)
      · intro a ha
        rw [blocksOf_append, List.mem_append] at ha
        rcases ha with ha | ha
        · have h1 := hb1 a ha
          have h2 := hcross a ha
          constructor
          · exact h1.1
          · calc a < Group.create_public_address (gi0 + 1) 0 := h2
              _ ≤ Group.create_public_address (gi0 + (g :: rest).length) 0 := by
                simp only [create_zero_eq, List.length_cons]
                omega
        · have h1 := ib1 a ha
          constructor
          · calc Group.create_public_address gi0 0
                ≤ Group.create_public_address (gi0 + 1) 0 := by
                  simp only [create_zero_eq]
                  omega
              _ ≤ a := h1.1
          · calc a < Group.create_public_address (gi0 + 1 + rest.length) 0 := h1.2
              _ ≤ Group.create_public_address (gi0 + (g :: rest).length) 0 := by
                simp only [create_zero_eq, List.length_cons]
                omega
      · dsimp only
        rw [blocksOf_append, List.length_append]
        omega
      · dsimp only
        omega
      · exact idb
      · exact idi
      · exact ids
    · have hw0 : want = 0 := by omega
      subst hw0
      simp [allocGroupsLoop, blocksOf]

/-- Sorted flattened blocks make the runs pairwise block-disjoint. -/
theorem sorted_blocksOf_disjoint (rs : List (Nat × Nat))
    (h : List.Sorted (· < ·) (blocksOf rs)) : rangesDisjoint rs := by
  unfold blocksOf at h
  have hp : List.Pairwise (fun l1 l2 => ∀ a ∈ l1, ∀ b ∈ l2, a < b)
      (rs.map regionBlocks) := (List.pairwise_flatten.mp h).2
  rw [List.pairwise_map] at hp
  unfold rangesDisjoint
  refine hp.imp ?_
  intro r s hrs x hx
  obtain ⟨h1, h2, h3, h4⟩ := hx
  have hxr : x ∈ regionBlocks r := List.mem_range'_1.mpr ⟨h1, h2⟩
  have hxs : x ∈ regionBlocks s := List.mem_range'_1.mpr ⟨h3, h4⟩
  exact lt_irrefl x (hrs x hxr x hxs)

theorem rangeCapacity_eq (rs : List (Nat × Nat)) :
    rangeCapacity rs = (blocksOf rs).length * BLOCK_SIZE := by
  induction rs with
  | nil => simp [rangeCapacity, blocksOf_nil]
  | cons r rest ih =>
    have h1 : rangeCapacity (r :: rest) = r.2 * BLOCK_SIZE + rangeCapacity rest := by
      simp [rangeCapacity]
    rw [h1, blocksOf_cons, List.length_append, ih, regionBlocks, List.length_range']
    ring

theorem setInodeRecord_inodes_ne (fs : FS) (i : Inode) (idx : Nat)
    (h : idx ≠ i.block_index) : (setInodeRecord fs i).disk.inodes idx = fs.disk.inodes idx := by
  simp only [setInodeRecord]
  rw [if_neg h]

theorem setInodeRecord_inodes_self (fs : FS) (i : Inode) :
    (setInodeRecord fs i).disk.inodes i.block_index = some i := by
  simp [setInodeRecord]

/-- The group list and the range/left bookkeeping of `allocGroupsLoop` do
not depend on the disk threaded through it — the disk only accumulates
bitmap snapshots. -/
theorem allocGroupsLoop_disk_irrel (maxr : Nat) (groups : List Group) :
    ∀ (gi0 want : Nat) (dk1 dk2 : Disk),
    (allocGroupsLoop maxr groups gi0 want dk1).1 =
      (allocGroupsLoop maxr groups gi0 want dk2).1 ∧
    (allocGroupsLoop maxr groups gi0 want dk1).2.2 =
      (allocGroupsLoop maxr groups gi0 want dk2).2.2 := by
  induction groups with
  | nil => intro gi0 want dk1 dk2; exact ⟨rfl, rfl⟩
  | cons g rest ih =>
    intro gi0 want dk1 dk2
    by_cases hw : want > 0
    · rcases hall : g.allocate_region gi0 want maxr with ⟨g1, rs1, rem1⟩
      have heval : ∀ dk : Disk, allocGroupsLoop maxr (g :: rest) gi0 want dk =
          (g1 :: (allocGroupsLoop maxr rest (gi0 + 1) rem1
              { dk with groupBitmaps := fun i =>
                  if i = gi0 then some g1.block_bitmap else dk.groupBitmaps i }).1,
            (allocGroupsLoop maxr rest (gi0 + 1) rem1
              { dk with groupBitmaps := fun i =>
                  if i = gi0 then some g1.block_bitmap else dk.groupBitmaps i }).2.1,
            rs1 ++ (allocGroupsLoop maxr rest (gi0 + 1) rem1
              { dk with groupBitmaps := fun i =>
                  if i = gi0 then some g1.block_bitmap else dk.groupBitmaps i }).2.2.1,
            (allocGroupsLoop maxr rest (gi0 + 1) rem1
              { dk with groupBitmaps := fun i =>
                  if i = gi0 then some g1.block_bitmap else dk.groupBitmaps i }).2.2.2) := by
        intro dk
        simp only [allocGroupsLoop, if_pos hw, hall]
      obtain ⟨e1, e2⟩ := ih (gi0 + 1) rem1
        { dk1 with groupBitmaps := fun i =>
            if i = gi0 then some g1.block_bitmap else dk1.groupBitmaps i }
        { dk2 with groupBitmaps := fun i =>
            if i = gi0 then some g1.block_bitmap else dk2.groupBitmaps i }
      rw [heval dk1, heval dk2]
      constructor
      · dsimp only
        rw [e1]
      · dsimp only
        rw [congrArg Prod.fst e2, congrArg Prod.snd e2]
    · constructor <;> simp only [allocGroupsLoop, if_neg hw]

/-- The tail of `write_inode_data` after the old body has been released:
inline store for payloads within `INODE_CAPACITY`, else first save, group
top-up, per-group region allocation, pointer save, and the ranged write.
Factoring it out lets one statement cover the write whichever arm the
release took. -/
def writeTail (fs : FS) (inode : Inode) (payload : List Nat) (data_len : Nat) :
    Except Err (FS × Inode) :=
  if data_len ≤ INODE_CAPACITY then
    let buffer := encrypt payload fs.lookup_table
    if buffer.length ≠ data_len then .error .invalidArg
    else if INODE_CAPACITY < buffer.length then .error .invalidArg
    else fs.save_inode { inode with size := data_len, data := .Raw buffer }
  else
    match fs.save_inode { inode with size := data_len } with
    | .error e => .error e
    | .ok (fs, inode) =>
      match FS.addGroupsWhile (blocks_to_allocate data_len + 1) fs
          (blocks_to_allocate data_len) with
      | none => .error .abort
      | some fs =>
        let a := allocGroupsLoop INODE_MAX_REGION fs.groups 0
          (blocks_to_allocate data_len) fs.disk
        match FS.save_inode { fs with groups := a.1, disk := a.2.1 }
            { inode with size := data_len, data := .DirectPointers a.2.2.1 } with
        | .error e => .error e
        | .ok (fs, inode) =>
          match writeRangesLoop fs.lookup_table fs.disk.bytes a.2.2.1 payload data_len with
          | .error e => .error e
          | .ok (d1, _, data_left) =>
            if data_left = 0 then
              .ok ({ fs with disk := { fs.disk with bytes := d1 } }, inode)
            else .error .abort

/-- On an inode with an inline body `write_inode_data` is exactly the
write tail — the release arm is the identity. -/
theorem write_eq_tail_raw (fs : FS) (fi : Inode) (p : List Nat) (dl : Nat) (bs : List Nat)
    (hraw : fi.data = .Raw bs) :
    fs.write_inode_data fi p dl = writeTail fs fi p dl := by
  unfold FS.write_inode_data writeTail
  rw [hraw]

/-- On an inode with a `Regions` body whose release succeeds,
`write_inode_data` is the write tail over the released state. -/
theorem write_eq_tail_ptrs (fs : FS) (fi : Inode) (p : List Nat) (dl : Nat)
    (ptrs : List (Nat × Nat)) (gs1 : List Group)
    (hptrs : fi.data = .DirectPointers ptrs)
    (hrel : releaseLoop fs.groups ptrs = .ok gs1) :
    fs.write_inode_data fi p dl = writeTail (releasedFS fs gs1) fi p dl := by
  unfold FS.write_inode_data writeTail
  rw [hptrs]
  dsimp only
  rw [release_inode_data_eq fs ptrs gs1 hrel]

/-- The inline branch of the write tail. -/
theorem writeTail_inline (fs : FS) (inode : Inode) (p : List Nat)
    (hlen : p.length ≤ INODE_CAPACITY) :
    writeTail fs inode p p.length =
      .ok (setInodeRecord fs (inlineInode fs inode p), inlineInode fs inode p) := by
  have henc : (encrypt p fs.lookup_table).length = p.length := encrypt_length p fs.lookup_table
  unfold writeTail
  simp only [if_pos hlen, henc]
  rw [if_neg (by omega : ¬p.length ≠ p.length),
    if_neg (by omega : ¬INODE_CAPACITY < p.length)]
  rw [save_inode_eq]
  · rfl
  · have hc : INODE_CAPACITY = 4047 := rfl
    have hb : BLOCK_SIZE = 4096 := rfl
    simp only [Inode.serializedSize, henc]
    omega

/-- The inline branch of the write tail, packaged: result pair, record
frame, and byte-exact read-back. -/
theorem writeTail_inline_pkg (fs0 : FS) (fi : Inode) (p : List Nat)
    (hlen : p.length ≤ INODE_CAPACITY) :
    ∃ fs' inode', writeTail fs0 fi p p.length = .ok (fs', inode') ∧
      inode'.block_index = fi.block_index ∧
      fs'.lookup_table = fs0.lookup_table ∧
      (∀ idx, idx ≠ fi.block_index → fs'.disk.inodes idx = fs0.disk.inodes idx) ∧
      fs'.disk.inodes fi.block_index = some inode' ∧
      fs'.read_inode_data inode' = p := by
  refine ⟨setInodeRecord fs0 (inlineInode fs0 fi p), inlineInode fs0 fi p,
    writeTail_inline fs0 fi p hlen, rfl, setInodeRecord_lookup _ _, ?_, ?_, ?_⟩
  · intro idx hne
    exact setInodeRecord_inodes_ne _ _ _ hne
  · exact setInodeRecord_inodes_self _ _
  · show FS.read_inode_data _ (inlineInode fs0 fi p) = p
    unfold FS.read_inode_data
    rw [show (inlineInode fs0 fi p).data = .Raw (encrypt p fs0.lookup_table) from rfl]
    dsimp only
    rw [setInodeRecord_lookup, encrypt_encrypt]

/-- The successful `Regions` branch of the write tail: a payload beyond
`INODE_CAPACITY` whose allocation fits the pointer inode and fully covers
the payload is written across the allocated runs, and reading the saved
inode back through the run walk returns the payload byte-exact.  The
allocation hypotheses range over an arbitrary disk — the loop's range
bookkeeping does not depend on it. -/
theorem writeTail_regions (fs0 : FS) (fi : Inode) (p : List Nat) (gs : List Group)
    (dk : Disk)
    (hgs : fs0.groups = gs)
    (hsize1 : ({ fi with size := p.length, last_modified := now } : Inode).serializedSize
      ≤ BLOCK_SIZE)
    (hcap : INODE_CAPACITY < p.length)
    (hfree : blocks_to_allocate p.length ≤ fs0.superblock.free_blocks)
    (hwidth : ∀ g ∈ gs, g.block_bitmap.length ≤ BLOCKS_PER_GROUP)
    (hfit : 44 + 8 * (allocGroupsLoop INODE_MAX_REGION gs 0 (blocks_to_allocate p.length)
        dk).2.2.1.length ≤ BLOCK_SIZE)
    (hleft : (allocGroupsLoop INODE_MAX_REGION gs 0 (blocks_to_allocate p.length)
        dk).2.2.2 = 0) :
    ∃ fs' inode', writeTail fs0 fi p p.length = .ok (fs', inode') ∧
      inode'.block_index = fi.block_index ∧
      fs'.lookup_table = fs0.lookup_table ∧
      (∀ idx, idx ≠ fi.block_index → fs'.disk.inodes idx = fs0.disk.inodes idx) ∧
      fs'.disk.inodes fi.block_index = some inode' ∧
      fs'.read_inode_data inode' = p := by
  have hnotle : ¬ p.length ≤ INODE_CAPACITY := by omega
  have hsave1 := save_inode_eq fs0
    ⟨fi.block_index, fi.created, fi.last_modified, p.length, fi.data_checksum, fi.data⟩
    hsize1
  dsimp only at hsave1
  set need := blocks_to_allocate p.length with hneed
  set fsS := setInodeRecord fs0
    ⟨fi.block_index, fi.created, now, p.length, fi.data_checksum, fi.data⟩ with hfsS
  have haddw : FS.addGroupsWhile (need + 1) fsS need = some fsS := by
    unfold FS.addGroupsWhile
    rw [if_neg (by rw [hfsS, setInodeRecord_superblock]; omega)]
  set A := allocGroupsLoop INODE_MAX_REGION gs 0 need fsS.disk with hA
  have h22 : A.2.2 = (allocGroupsLoop INODE_MAX_REGION gs 0 need dk).2.2 := by
    rw [hA]
    exact (allocGroupsLoop_disk_irrel INODE_MAX_REGION gs 0 need fsS.disk dk).2
  have hfitA : 44 + 8 * A.2.2.1.length ≤ BLOCK_SIZE := by
    rw [congrArg Prod.fst h22]
    exact hfit
  have hleftA : A.2.2.2 = 0 := by
    rw [congrArg Prod.snd h22]
    exact hleft
  have hAL := allocGroupsLoop_spec INODE_MAX_REGION gs 0 need fsS.disk hwidth
  rw [← hA] at hAL
  obtain ⟨hsort, _, hlen, _, hdbytes, hdinodes, _⟩ := hAL
  have hdisj := sorted_blocksOf_disjoint A.2.2.1 hsort
  have hble : p.length ≤ need * BLOCK_SIZE := by
    rw [hneed]
    unfold blocks_to_allocate
    have hBn : BLOCK_SIZE = 4096 := rfl
    by_cases hmod : p.length % BLOCK_SIZE ≠ 0
    · rw [if_pos hmod, hBn] at *
      omega
    · rw [if_neg hmod, hBn] at *
      omega
  have hcapge : p.length ≤ rangeCapacity A.2.2.1 := by
    rw [rangeCapacity_eq]
    have hlen' : (blocksOf A.2.2.1).length = need := by omega
    rw [hlen']
    exact hble
  obtain ⟨d2w, heqW, hfrW, hrdW⟩ :=
    writeRangesLoop_spec A.2.2.1 fs0.lookup_table fs0.disk.bytes p p.length rfl hdisj
  have hminfull : min p.length (rangeCapacity A.2.2.1) = p.length := min_eq_left hcapge
  rw [hminfull, List.drop_length, Nat.sub_self] at heqW
  rw [hminfull, List.take_length, Nat.sub_self] at hrdW
  have hiP : ((⟨fi.block_index, fi.created, now, p.length, fi.data_checksum,
      .DirectPointers A.2.2.1⟩ : Inode)).serializedSize ≤ BLOCK_SIZE := by
    simp only [Inode.serializedSize]
    omega
  have hsave2 := save_inode_eq { fsS with groups := A.1, disk := A.2.1 }
    ⟨fi.block_index, fi.created, now, p.length, fi.data_checksum, .DirectPointers A.2.2.1⟩
    hiP
  dsimp only at hsave2
  set inode2 : Inode := ⟨fi.block_index, fi.created, now, p.length, fi.data_checksum,
    .DirectPointers A.2.2.1⟩ with hinode2
  set fs2 := setInodeRecord { fsS with groups := A.1, disk := A.2.1 } inode2 with hfs2
  have hfs2lookup : fs2.lookup_table = fs0.lookup_table := by
    rw [hfs2, setInodeRecord_lookup]
    show fsS.lookup_table = fs0.lookup_table
    rw [hfsS, setInodeRecord_lookup]
  have hfs2bytes : fs2.disk.bytes = fs0.disk.bytes := by
    rw [hfs2]
    show A.2.1.bytes = fs0.disk.bytes
    rw [hdbytes, hfsS, setInodeRecord_bytes]
  refine ⟨{ fs2 with disk := { fs2.disk with bytes := d2w } }, inode2, ?_, rfl, ?_, ?_, ?_, ?_⟩
  · have hfsSgroups : fsS.groups = gs := by
      rw [hfsS, setInodeRecord_groups]
      exact hgs
    unfold writeTail
    rw [if_neg hnotle]
    rw [hsave1]
    dsimp only
    rw [← hneed]
    rw [haddw]
    dsimp only
    rw [hfsSgroups]
    rw [← hA]
    rw [hsave2]
    dsimp only
    rw [hfs2lookup, hfs2bytes]
    rw [heqW]
    dsimp only
    rfl
  · show ({ fs2 with disk := { fs2.disk with bytes := d2w } } : FS).lookup_table
        = fs0.lookup_table
    dsimp only
    exact hfs2lookup
  · intro idx hne
    show fs2.disk.inodes idx = fs0.disk.inodes idx
    rw [hfs2, setInodeRecord_inodes_ne _ _ _ (by rw [hinode2]; exact hne)]
    show A.2.1.inodes idx = fs0.disk.inodes idx
    rw [hdinodes, hfsS]
    exact setInodeRecord_inodes_ne _ _ _ (by exact hne)
  · show fs2.disk.inodes fi.block_index = some inode2
    rw [hfs2]
    exact setInodeRecord_inodes_self _ _
  · show FS.read_inode_data _ inode2 = p
    unfold FS.read_inode_data
    rw [hinode2]
    dsimp only
    rw [show ({ fs2 with disk := { fs2.disk with bytes := d2w } } : FS).lookup_table
        = fs0.lookup_table from hfs2lookup]
    rw [hrdW d2w (fun a _ => rfl)]

/-- Decompose a successful `get_directory_index` into its decode and
checksum facts. -/
theorem get_directory_index_parts (fs : FS) (di : DirectoryIndex) (rootI : Inode)
    (rbs : List Nat)
    (hrootrec : fs.disk.inodes ROOT_INODE_INDEX = some rootI)
    (hrootraw : rootI.data = .Raw rbs)
    (hdi : fs.get_directory_index = .ok di) :
    decodeMap (encrypt rbs fs.lookup_table) = some (di.directories, di.checksum) ∧
    DirectoryIndex.verify_checksum di = true := by
  unfold FS.get_directory_index FS.get_inode at hdi
  rw [hrootrec] at hdi
  dsimp only at hdi
  unfold FS.read_inode_data at hdi
  rw [hrootraw] at hdi
  split at hdi
  · exact Except.noConfusion hdi
  case h_2 es c heq =>
    split at hdi
    case isTrue hv =>
      injection hdi with h
      subst h
      exact ⟨heq, hv⟩
    case isFalse => exact Except.noConfusion hdi

/-- Decompose a successful `find_directory` into the directory decode. -/
theorem find_directory_parts (fs : FS) (dir : List Nat) (d : Directory) (dirIdx : Nat)
    (di : DirectoryIndex) (dirI : Inode) (dbs : List Nat)
    (hdi : fs.get_directory_index = .ok di)
    (hfind : di.find_dir dir = some dirIdx)
    (hdirrec : fs.disk.inodes dirIdx = some dirI)
    (hdirraw : dirI.data = .Raw dbs)
    (hfd : fs.find_directory dir = .ok (d, dirIdx)) :
    decodeMap (encrypt dbs fs.lookup_table) = some (d.files, d.checksum) := by
  unfold FS.find_directory at hfd
  rw [hdi] at hfd
  dsimp only at hfd
  rw [hfind] at hfd
  dsimp only at hfd
  unfold FS.get_inode at hfd
  rw [hdirrec] at hfd
  dsimp only at hfd
  unfold FS.read_inode_data at hfd
  rw [hdirraw] at hfd
  split at hfd
  · exact Except.noConfusion hfd
  case h_2 es c heq =>
    injection hfd with h
    have h1 : (⟨es, c⟩ : Directory) = d := congrArg Prod.fst h
    rw [← h1]
    exact heq

/-- Evaluate `get_file_data` from the record-level facts of the state. -/
theorem get_file_data_eval (fs' : FS) (dir name : List Nat) (di : DirectoryIndex)
    (d : Directory) (rootI dirI fiR : Inode) (rbs dbs : List Nat) (dirIdx fileIdx : Nat)
    (hro : fs'.disk.inodes ROOT_INODE_INDEX = some rootI)
    (hrootraw : rootI.data = .Raw rbs)
    (hdec1 : decodeMap (encrypt rbs fs'.lookup_table) = some (di.directories, di.checksum))
    (hver : DirectoryIndex.verify_checksum di = true)
    (hfind : di.find_dir dir = some dirIdx)
    (hdo : fs'.disk.inodes dirIdx = some dirI)
    (hdirraw : dirI.data = .Raw dbs)
    (hdec2 : decodeMap (encrypt dbs fs'.lookup_table) = some (d.files, d.checksum))
    (hfile : d.get_file name = some fileIdx)
    (hfo : fs'.disk.inodes fileIdx = some fiR) :
    fs'.get_file_data dir name = .ok (fs'.read_inode_data fiR) := by
  have hgdi : fs'.get_directory_index = .ok di := by
    unfold FS.get_directory_index FS.get_inode
    rw [hro]
    dsimp only
    unfold FS.read_inode_data
    rw [hrootraw, hdec1]
    dsimp only
    rw [if_pos hver]
  have hfdir : fs'.find_directory dir = .ok (d, dirIdx) := by
    unfold FS.find_directory
    rw [hgdi]
    dsimp only
    rw [hfind]
    dsimp only
    unfold FS.get_inode
    rw [hdo]
    dsimp only
    unfold FS.read_inode_data
    rw [hdirraw, hdec2]
  unfold FS.get_file_data
  rw [hfdir]
  dsimp only
  rw [hfile]
  dsimp only
  unfold FS.get_inode
  rw [hfo]

theorem serializedSize_ptrs (i : Inode) (ps : List (Nat × Nat))
    (h : i.data = .DirectPointers ps) : i.serializedSize = 44 + 8 * ps.length := by
  simp [Inode.serializedSize, h]

/-- Round trip through an existing directory entry: given a successful
write of the payload at the entry's inode with the record-level frame
package, `add_file` succeeds and `get_file_data` returns the payload. -/
theorem add_file_roundtrip_existing (fs fsW : FS) (dir name p rbs dbs : List Nat)
    (di : DirectoryIndex) (d : Directory) (rootI dirI fi inodeW : Inode)
    (dirIdx fileIdx : Nat)
    (hdi : fs.get_directory_index = .ok di)
    (hfind : di.find_dir dir = some dirIdx)
    (hfd : fs.find_directory dir = .ok (d, dirIdx))
    (hfile : d.get_file name = some fileIdx)
    (hrootrec : fs.disk.inodes ROOT_INODE_INDEX = some rootI)
    (hrootraw : rootI.data = .Raw rbs)
    (hdirrec : fs.disk.inodes dirIdx = some dirI)
    (hdirraw : dirI.data = .Raw dbs)
    (hrec : fs.disk.inodes fileIdx = some fi)
    (hidx : fi.block_index = fileIdx)
    (hne1 : fileIdx ≠ ROOT_INODE_INDEX)
    (hne2 : fileIdx ≠ dirIdx)
    (hw : fs.write_inode_data fi p p.length = .ok (fsW, inodeW))
    (hWlt : fsW.lookup_table = fs.lookup_table)
    (hWne : ∀ idx, idx ≠ fi.block_index → fsW.disk.inodes idx = fs.disk.inodes idx)
    (hWself : fsW.disk.inodes fi.block_index = some inodeW)
    (hWread : fsW.read_inode_data inodeW = p) :
    ∃ fs', fs.add_file dir name p p.length = .ok fs' ∧
      fs'.get_file_data dir name = .ok p := by
  obtain ⟨hdec1, hver⟩ := get_directory_index_parts fs di rootI rbs hrootrec hrootraw hdi
  have hdec2 := find_directory_parts fs dir d dirIdx di dirI dbs hdi hfind hdirrec hdirraw hfd
  have hget : fs.get_inode fileIdx = .ok fi := by
    unfold FS.get_inode
    rw [hrec]
  have hltW : (fsW.save_superblock).lookup_table = fs.lookup_table := by
    show fsW.lookup_table = fs.lookup_table
    exact hWlt
  refine ⟨fsW.save_superblock, ?_, ?_⟩
  · unfold FS.add_file
    simp only [hfd, hfile, hget, hw]
  · have h := get_file_data_eval (fsW.save_superblock) dir name di d rootI dirI
      inodeW rbs dbs dirIdx fileIdx
      (by
        show fsW.disk.inodes ROOT_INODE_INDEX = some rootI
        rw [hWne ROOT_INODE_INDEX (by rw [hidx]; exact Ne.symm hne1)]
        exact hrootrec)
      hrootraw
      (by rw [hltW]; exact hdec1)
      hver hfind
      (by
        show fsW.disk.inodes dirIdx = some dirI
        rw [hWne dirIdx (by rw [hidx]; exact Ne.symm hne2)]
        exact hdirrec)
      hdirraw
      (by rw [hltW]; exact hdec2)
      hfile
      (by
        show fsW.disk.inodes fileIdx = some inodeW
        rw [← hidx]
        exact hWself)
    have hread : (fsW.save_superblock).read_inode_data inodeW = p := hWread
    rw [hread] at h
    exact h

/-- Round trip through a fresh entry: the allocator claims a new inode,
the directory registers it and is rewritten inline, `file_count` is
bumped, and the payload write package yields byte-exact read-back. -/
theorem add_file_roundtrip_fresh (fs fsA fs2 fs3 fsW : FS)
    (dir name p rbs dbs : List Nat) (di : DirectoryIndex) (d d1 : Directory)
    (rootI dirI inodeW : Inode) (dirIdx addr : Nat) (groups1 : List Group)
    (hdi : fs.get_directory_index = .ok di)
    (hfind : di.find_dir dir = some dirIdx)
    (hfd : fs.find_directory dir = .ok (d, dirIdx))
    (hrootrec : fs.disk.inodes ROOT_INODE_INDEX = some rootI)
    (hrootraw : rootI.data = .Raw rbs)
    (hdirrec : fs.disk.inodes dirIdx = some dirI)
    (hdirraw : dirI.data = .Raw dbs)
    (hdiridx : dirI.block_index = dirIdx)
    (hdR : dirIdx ≠ ROOT_INODE_INDEX)
    (hfileN : d.get_file name = none)
    (halloc : allocateInMemLoop fs.groups 0 = some (addr, groups1))
    (haddrR : addr ≠ ROOT_INODE_INDEX)
    (haddrD : addr ≠ dirIdx)
    (hd1 : d.add_file name addr = .ok d1)
    (hldir : d1.serialize.length ≤ INODE_CAPACITY)
    (hdec2s : decodeMap d1.serialize = some (d1.files, d1.checksum))
    (hfile1 : d1.get_file name = some addr)
    (hfsA : fsA = setInodeRecord { fs with groups := groups1 } (Inode.new addr))
    (hfs2 : fs2 = setInodeRecord fsA (inlineInode fsA dirI d1.serialize))
    (hfs3 : fs3 = { fs2 with superblock :=
        { fs2.superblock with file_count := fs2.superblock.file_count + 1 } })
    (hw : fs3.write_inode_data (Inode.new addr) p p.length = .ok (fsW, inodeW))
    (hWlt : fsW.lookup_table = fs.lookup_table)
    (hWne : ∀ idx, idx ≠ addr → fsW.disk.inodes idx = fs3.disk.inodes idx)
    (hWself : fsW.disk.inodes addr = some inodeW)
    (hWread : fsW.read_inode_data inodeW = p) :
    ∃ fs', fs.add_file dir name p p.length = .ok fs' ∧
      fs'.get_file_data dir name = .ok p := by
  obtain ⟨hdec1, hver⟩ := get_directory_index_parts fs di rootI rbs hrootrec hrootraw hdi
  have halloci := allocate_inode_eq fs addr groups1 halloc
  have hArec : fsA.disk.inodes dirIdx = some dirI := by
    rw [hfsA, setInodeRecord_inodes_ne _ _ _
      (show dirIdx ≠ (Inode.new addr).block_index from Ne.symm haddrD)]
    exact hdirrec
  have hsd := save_directory_inline fsA d1 dirIdx dirI dbs hArec hdirraw hldir
  have hii : (inlineInode fsA dirI d1.serialize).block_index = dirIdx := hdiridx
  have h3disk : fs3.disk = fs2.disk := by
    rw [hfs3]
  have h3root : fs3.disk.inodes ROOT_INODE_INDEX = some rootI := by
    rw [h3disk, hfs2, setInodeRecord_inodes_ne _ _ _
      (by rw [hii]; exact Ne.symm hdR)]
    rw [hfsA, setInodeRecord_inodes_ne _ _ _
      (show ROOT_INODE_INDEX ≠ (Inode.new addr).block_index from Ne.symm haddrR)]
    exact hrootrec
  have h3dir : fs3.disk.inodes dirIdx = some (inlineInode fsA dirI d1.serialize) := by
    rw [h3disk, hfs2, ← hii]
    exact setInodeRecord_inodes_self _ _
  have hAlt : fsA.lookup_table = fs.lookup_table := by
    rw [hfsA, setInodeRecord_lookup]
  have hltW : (fsW.save_superblock).lookup_table = fs.lookup_table := by
    show fsW.lookup_table = fs.lookup_table
    exact hWlt
  refine ⟨fsW.save_superblock, ?_, ?_⟩
  · unfold FS.add_file
    simp only [hfd, hfileN, halloci]
    rw [show (Inode.new addr).block_index = addr from rfl]
    rw [← hfsA]
    simp only [hd1, hsd]
    rw [← hfs2, ← hfs3]
    simp only [hw]
  · have h := get_file_data_eval (fsW.save_superblock) dir name di d1 rootI
      (inlineInode fsA dirI d1.serialize) inodeW rbs
      (encrypt d1.serialize fsA.lookup_table) dirIdx addr
      (by
        show fsW.disk.inodes ROOT_INODE_INDEX = some rootI
        rw [hWne ROOT_INODE_INDEX (Ne.symm haddrR)]
        exact h3root)
      hrootraw
      (by rw [hltW]; exact hdec1)
      hver hfind
      (by
        show fsW.disk.inodes dirIdx = some (inlineInode fsA dirI d1.serialize)
        rw [hWne dirIdx (Ne.symm haddrD)]
        exact h3dir)
      rfl
      (by
        rw [hltW, hAlt, encrypt_encrypt]
        exact hdec2s)
      hfile1
      (by
        show fsW.disk.inodes addr = some inodeW
        exact hWself)
    have hread : (fsW.save_superblock).read_inode_data inodeW = p := hWread
    rw [hread] at h
    exact h

set_option maxRecDepth 4000 in
/-- C1: the write/read round trip.  On a state whose root index and target
directory resolve through inline records, `add_file` followed by
`get_file_data` on the same path and name returns the payload byte-exact —
the keystream XOR applied on write is undone on read — in every case the
spec covers: a fresh add (the allocator hands out a new non-colliding
inode and the directory registers it), an overwrite of a file whose body
is inline, and an overwrite of a file whose body is `Regions` (whose old
runs release first); and for each, both payload representations: payloads
within `INODE_CAPACITY` are stored inline, larger payloads take the
`Regions` path, where the per-group allocation yields sorted, pairwise
disjoint runs, provided the run list fits the pointer inode (at most 506
runs, cf. C4) and covers the payload (final `data_left` 0, otherwise the
code panics). -/
theorem C1_write_read_roundtrip (fs : FS) (dir name p rbs dbs : List Nat)
    (di : DirectoryIndex) (d : Directory) (rootI dirI : Inode) (dirIdx : Nat)
    (hdi : fs.get_directory_index = .ok di)
    (hfind : di.find_dir dir = some dirIdx)
    (hfd : fs.find_directory dir = .ok (d, dirIdx))
    (hrootrec : fs.disk.inodes ROOT_INODE_INDEX = some rootI)
    (hrootraw : rootI.data = .Raw rbs)
    (hdirrec : fs.disk.inodes dirIdx = some dirI)
    (hdirraw : dirI.data = .Raw dbs)
    (hdiridx : dirI.block_index = dirIdx)
    (hdR : dirIdx ≠ ROOT_INODE_INDEX) :
    (∀ (addr : Nat) (groups1 : List Group) (d1 : Directory),
      d.get_file name = none →
      allocateInMemLoop fs.groups 0 = some (addr, groups1) →
      addr ≠ ROOT_INODE_INDEX → addr ≠ dirIdx →
      d.add_file name addr = .ok d1 →
      d1.serialize.length ≤ INODE_CAPACITY →
      decodeMap d1.serialize = some (d1.files, d1.checksum) →
      d1.get_file name = some addr →
      ((p.length ≤ INODE_CAPACITY →
        ∃ fs', fs.add_file dir name p p.length = .ok fs' ∧
          fs'.get_file_data dir name = .ok p) ∧
       (INODE_CAPACITY < p.length →
        blocks_to_allocate p.length ≤ fs.superblock.free_blocks →
        (∀ g ∈ groups1, g.block_bitmap.length ≤ BLOCKS_PER_GROUP) →
        44 + 8 * (allocGroupsLoop INODE_MAX_REGION groups1 0 (blocks_to_allocate p.length)
          fs.disk).2.2.1.length ≤ BLOCK_SIZE →
        (allocGroupsLoop INODE_MAX_REGION groups1 0 (blocks_to_allocate p.length)
          fs.disk).2.2.2 = 0 →
        ∃ fs', fs.add_file dir name p p.length = .ok fs' ∧
          fs'.get_file_data dir name = .ok p))) ∧
    (∀ (fileIdx : Nat) (fi : Inode) (bs : List Nat),
      d.get_file name = some fileIdx →
      fs.disk.inodes fileIdx = some fi →
      fi.block_index = fileIdx →
      fi.data = .Raw bs →
      fileIdx ≠ ROOT_INODE_INDEX → fileIdx ≠ dirIdx →
      ((p.length ≤ INODE_CAPACITY →
        ∃ fs', fs.add_file dir name p p.length = .ok fs' ∧
          fs'.get_file_data dir name = .ok p) ∧
       (INODE_CAPACITY < p.length →
        44 + bs.length ≤ BLOCK_SIZE →
        blocks_to_allocate p.length ≤ fs.superblock.free_blocks →
        (∀ g ∈ fs.groups, g.block_bitmap.length ≤ BLOCKS_PER_GROUP) →
        44 + 8 * (allocGroupsLoop INODE_MAX_REGION fs.groups 0 (blocks_to_allocate p.length)
          fs.disk).2.2.1.length ≤ BLOCK_SIZE →
        (allocGroupsLoop INODE_MAX_REGION fs.groups 0 (blocks_to_allocate p.length)
          fs.disk).2.2.2 = 0 →
        ∃ fs', fs.add_file dir name p p.length = .ok fs' ∧
          fs'.get_file_data dir name = .ok p))) ∧
    (∀ (fileIdx : Nat) (fi : Inode) (ptrs : List (Nat × Nat)) (gs1 : List Group),
      d.get_file name = some fileIdx →
      fs.disk.inodes fileIdx = some fi →
      fi.block_index = fileIdx →
      fi.data = .DirectPointers ptrs →
      releaseLoop fs.groups ptrs = .ok gs1 →
      fileIdx ≠ ROOT_INODE_INDEX → fileIdx ≠ dirIdx →
      ((p.length ≤ INODE_CAPACITY →
        ∃ fs', fs.add_file dir name p p.length = .ok fs' ∧
          fs'.get_file_data dir name = .ok p) ∧
       (INODE_CAPACITY < p.length →
        44 + 8 * ptrs.length ≤ BLOCK_SIZE →
        blocks_to_allocate p.length ≤ fs.superblock.free_blocks →
        (∀ g ∈ gs1, g.block_bitmap.length ≤ BLOCKS_PER_GROUP) →
        44 + 8 * (allocGroupsLoop INODE_MAX_REGION gs1 0 (blocks_to_allocate p.length)
          fs.disk).2.2.1.length ≤ BLOCK_SIZE →
        (allocGroupsLoop INODE_MAX_REGION gs1 0 (blocks_to_allocate p.length)
          fs.disk).2.2.2 = 0 →
        ∃ fs', fs.add_file dir name p p.length = .ok fs' ∧
          fs'.get_file_data dir name = .ok p))) := by
  refine ⟨?_, ?_, ?_⟩
  · intro addr groups1 d1 hfileN halloc haddrR haddrD hd1 hldir hdec2s hfile1
    set fsA := setInodeRecord { fs with groups := groups1 } (Inode.new addr) with hfsA
    set fs2 := setInodeRecord fsA (inlineInode fsA dirI d1.serialize) with hfs2
    set fs3 : FS := { fs2 with superblock :=
      { fs2.superblock with file_count := fs2.superblock.file_count + 1 } } with hfs3
    have heqt : fs3.write_inode_data (Inode.new addr) p p.length =
        writeTail fs3 (Inode.new addr) p p.length :=
      write_eq_tail_raw fs3 (Inode.new addr) p p.length [] rfl
    constructor
    · intro hlen
      obtain ⟨fsW, inodeW, hwT, hWidx, hWlt, hWne, hWself, hWread⟩ :=
        writeTail_inline_pkg fs3 (Inode.new addr) p hlen
      have hw : fs3.write_inode_data (Inode.new addr) p p.length = .ok (fsW, inodeW) := by
        rw [heqt]
        exact hwT
      exact add_file_roundtrip_fresh fs fsA fs2 fs3 fsW dir name p rbs dbs di d d1
        rootI dirI inodeW dirIdx addr groups1 hdi hfind hfd hrootrec hrootraw hdirrec
        hdirraw hdiridx hdR hfileN halloc haddrR haddrD hd1 hldir hdec2s hfile1
        hfsA hfs2 hfs3 hw hWlt hWne hWself hWread
    · intro hcap hfree hwidth hfit hleft
      have hsz : ({ Inode.new addr with size := p.length, last_modified := now } :
          Inode).serializedSize ≤ BLOCK_SIZE := by
        show 44 + ([] : List Nat).length ≤ BLOCK_SIZE
        decide
      obtain ⟨fsW, inodeW, hwT, hWidx, hWlt, hWne, hWself, hWread⟩ :=
        writeTail_regions fs3 (Inode.new addr) p groups1 fs.disk rfl hsz hcap hfree
          hwidth hfit hleft
      have hw : fs3.write_inode_data (Inode.new addr) p p.length = .ok (fsW, inodeW) := by
        rw [heqt]
        exact hwT
      exact add_file_roundtrip_fresh fs fsA fs2 fs3 fsW dir name p rbs dbs di d d1
        rootI dirI inodeW dirIdx addr groups1 hdi hfind hfd hrootrec hrootraw hdirrec
        hdirraw hdiridx hdR hfileN halloc haddrR haddrD hd1 hldir hdec2s hfile1
        hfsA hfs2 hfs3 hw hWlt hWne hWself hWread
  · intro fileIdx fi bs hfile hrec hidx hraw hne1 hne2
    have heqt : fs.write_inode_data fi p p.length = writeTail fs fi p p.length :=
      write_eq_tail_raw fs fi p p.length bs hraw
    constructor
    · intro hlen
      obtain ⟨fsW, inodeW, hwT, hWidx, hWlt, hWne, hWself, hWread⟩ :=
        writeTail_inline_pkg fs fi p hlen
      have hw : fs.write_inode_data fi p p.length = .ok (fsW, inodeW) := by
        rw [heqt]
        exact hwT
      exact add_file_roundtrip_existing fs fsW dir name p rbs dbs di d rootI dirI fi
        inodeW dirIdx fileIdx hdi hfind hfd hfile hrootrec hrootraw hdirrec hdirraw
        hrec hidx hne1 hne2 hw hWlt hWne hWself hWread
    · intro hcap hbs hfree hwidth hfit hleft
      have hsz : ({ fi with size := p.length, last_modified := now } :
          Inode).serializedSize ≤ BLOCK_SIZE := by
        rw [show ({ fi with size := p.length, last_modified := now } :
            Inode).serializedSize = 44 + bs.length from serializedSize_raw _ bs hraw]
        exact hbs
      obtain ⟨fsW, inodeW, hwT, hWidx, hWlt, hWne, hWself, hWread⟩ :=
        writeTail_regions fs fi p fs.groups fs.disk rfl hsz hcap hfree hwidth hfit hleft
      have hw : fs.write_inode_data fi p p.length = .ok (fsW, inodeW) := by
        rw [heqt]
        exact hwT
      exact add_file_roundtrip_existing fs fsW dir name p rbs dbs di d rootI dirI fi
        inodeW dirIdx fileIdx hdi hfind hfd hfile hrootrec hrootraw hdirrec hdirraw
        hrec hidx hne1 hne2 hw hWlt hWne hWself hWread
  · intro fileIdx fi ptrs gs1 hfile hrec hidx hptrs hrel hne1 hne2
    have heqt : fs.write_inode_data fi p p.length =
        writeTail (releasedFS fs gs1) fi p p.length :=
      write_eq_tail_ptrs fs fi p p.length ptrs gs1 hptrs hrel
    constructor
    · intro hlen
      obtain ⟨fsW, inodeW, hwT, hWidx, hWlt, hWne, hWself, hWread⟩ :=
        writeTail_inline_pkg (releasedFS fs gs1) fi p hlen
      have hw : fs.write_inode_data fi p p.length = .ok (fsW, inodeW) := by
        rw [heqt]
        exact hwT
      exact add_file_roundtrip_existing fs fsW dir name p rbs dbs di d rootI dirI fi
        inodeW dirIdx fileIdx hdi hfind hfd hfile hrootrec hrootraw hdirrec hdirraw
        hrec hidx hne1 hne2 hw hWlt hWne hWself hWread
    · intro hcap hpfit hfree hwidth hfit hleft
      have hsz : ({ fi with size := p.length, last_modified := now } :
          Inode).serializedSize ≤ BLOCK_SIZE := by
        rw [show ({ fi with size := p.length, last_modified := now } :
            Inode).serializedSize = 44 + 8 * ptrs.length from
          serializedSize_ptrs _ ptrs hptrs]
        exact hpfit
      obtain ⟨fsW, inodeW, hwT, hWidx, hWlt, hWne, hWself, hWread⟩ :=
        writeTail_regions (releasedFS fs gs1) fi p gs1 fs.disk rfl hsz hcap hfree
          hwidth hfit hleft
      have hw : fs.write_inode_data fi p p.length = .ok (fsW, inodeW) := by
        rw [heqt]
        exact hwT
      exact add_file_roundtrip_existing fs fsW dir name p rbs dbs di d rootI dirI fi
        inodeW dirIdx fileIdx hdi hfind hfd hfile hrootrec hrootraw hdirrec hdirraw
        hrec hidx hne1 hne2 hw hWlt hWne hWself hWread

/-- The concrete records of `X3` used by the round-trip witness. -/
def X3root : Inode := (X3.disk.inodes ROOT_INODE_INDEX).getD (Inode.new 0)

def X3dirI : Inode := (X3.disk.inodes 3).getD (Inode.new 0)

def X3fi : Inode := (X3.disk.inodes 4).getD (Inode.new 0)

def X3rbs : List Nat := match X3root.data with | .Raw bs => bs | _ => []

def X3dbs : List Nat := match X3dirI.data with | .Raw bs => bs | _ => []

def X3bs : List Nat := match X3fi.data with | .Raw bs => bs | _ => []

def X3di : DirectoryIndex :=
  match X3.get_directory_index with
  | .ok di => di
  | .error _ => DirectoryIndex.init

def X3d : Directory :=
  match X3.find_directory [47, 120] with
  | .ok (d, _) => d
  | .error _ => Directory.init

/-- The concrete records of `X2` used by the fresh-add witness. -/
def X2root : Inode := (X2.disk.inodes ROOT_INODE_INDEX).getD (Inode.new 0)

def X2dirI : Inode := (X2.disk.inodes 3).getD (Inode.new 0)

def X2rbs : List Nat := match X2root.data with | .Raw bs => bs | _ => []

def X2dbs : List Nat := match X2dirI.data with | .Raw bs => bs | _ => []

def X2di : DirectoryIndex :=
  match X2.get_directory_index with
  | .ok di => di
  | .error _ => DirectoryIndex.init

def X2d : Directory :=
  match X2.find_directory [47, 120] with
  | .ok (d, _) => d
  | .error _ => Directory.init

set_option maxRecDepth 40000 in
/-- Witness for C1 at concrete states: a fresh add on `X2`, an overwrite of
the inline-bodied file on `X3`, and an overwrite of the `Regions`-bodied
file on `Y0`, each with an inline 3-byte payload and a 5000-byte two-block
`Regions` payload, all round-tripping byte-exact. -/
theorem C1_write_read_roundtrip_witness :
    (∃ fs', X2.add_file [47, 120] [102] [10, 20, 30] ([10, 20, 30] : List Nat).length
        = .ok fs' ∧ fs'.get_file_data [47, 120] [102] = .ok [10, 20, 30]) ∧
    (∃ fs', X2.add_file [47, 120] [102] (List.replicate 5000 5)
          (List.replicate 5000 5).length = .ok fs' ∧
      fs'.get_file_data [47, 120] [102] = .ok (List.replicate 5000 5)) ∧
    (∃ fs', X3.add_file [47, 120] [102] [10, 20, 30] ([10, 20, 30] : List Nat).length
        = .ok fs' ∧ fs'.get_file_data [47, 120] [102] = .ok [10, 20, 30]) ∧
    (∃ fs', X3.add_file [47, 120] [102] (List.replicate 5000 5)
          (List.replicate 5000 5).length = .ok fs' ∧
      fs'.get_file_data [47, 120] [102] = .ok (List.replicate 5000 5)) ∧
    (∃ fs', Y0.add_file [47, 120] [102] [10, 20, 30] ([10, 20, 30] : List Nat).length
        = .ok fs' ∧ fs'.get_file_data [47, 120] [102] = .ok [10, 20, 30]) ∧
    (∃ fs', Y0.add_file [47, 120] [102] (List.replicate 5000 5)
          (List.replicate 5000 5).length = .ok fs' ∧
      fs'.get_file_data [47, 120] [102] = .ok (List.replicate 5000 5)) := by
  refine ⟨?_, ?_, ?_, ?_, ?_, ?_⟩
  · exact ((C1_write_read_roundtrip X2 [47, 120] [102] [10, 20, 30] X2rbs X2dbs X2di X2d
      X2root X2dirI 3 (by rfl) (by decide) (by rfl) (by rfl) (by rfl) (by rfl) (by rfl)
      (by decide) (by decide)).1 4
      [⟨[true, true, true, false, false, false, false, false]⟩]
      ⟨[([102], 4)], X2d.checksum⟩ (by decide) (by decide) (by decide) (by decide)
      (by rfl) (by decide) (by decide) (by decide)).1 (by decide)
  · exact ((C1_write_read_roundtrip X2 [47, 120] [102] (List.replicate 5000 5) X2rbs X2dbs
      X2di X2d X2root X2dirI 3 (by rfl) (by decide) (by rfl) (by rfl) (by rfl) (by rfl)
      (by rfl) (by decide) (by decide)).1 4
      [⟨[true, true, true, false, false, false, false, false]⟩]
      ⟨[([102], 4)], X2d.checksum⟩ (by decide) (by decide) (by decide) (by decide)
      (by rfl) (by decide) (by decide) (by decide)).2
      (by rw [List.length_replicate]; decide)
      (by rw [List.length_replicate]; decide)
      (by decide)
      (by rw [List.length_replicate]; decide)
      (by rw [List.length_replicate]; decide)
  · exact ((C1_write_read_roundtrip X3 [47, 120] [102] [10, 20, 30] X3rbs X3dbs X3di X3d
      X3root X3dirI 3 (by rfl) (by decide) (by rfl) (by rfl) (by rfl) (by rfl) (by rfl)
      (by decide) (by decide)).2.1 4 X3fi X3bs (by decide) (by rfl) (by decide) (by rfl)
      (by decide) (by decide)).1 (by decide)
  · exact ((C1_write_read_roundtrip X3 [47, 120] [102] (List.replicate 5000 5) X3rbs X3dbs
      X3di X3d X3root X3dirI 3 (by rfl) (by decide) (by rfl) (by rfl) (by rfl) (by rfl)
      (by rfl) (by decide) (by decide)).2.1 4 X3fi X3bs (by decide) (by rfl) (by decide)
      (by rfl) (by decide) (by decide)).2
      (by rw [List.length_replicate]; decide)
      (by decide)
      (by rw [List.length_replicate]; decide)
      (by decide)
      (by rw [List.length_replicate]; decide)
      (by rw [List.length_replicate]; decide)
  · exact ((C1_write_read_roundtrip Y0 [47, 120] [102] [10, 20, 30] X3rbs X3dbs X3di X3d
      X3root X3dirI 3 (by rfl) (by decide) (by rfl) (by rfl) (by rfl) (by rfl) (by rfl)
      (by decide) (by decide)).2.2 4 fiPtr [(7, 2)]
      [⟨[true, true, true, false, false, false, false, false]⟩] (by decide) (by rfl)
      (by decide) (by rfl) (by rfl) (by decide) (by decide)).1 (by decide)
  · exact ((C1_write_read_roundtrip Y0 [47, 120] [102] (List.replicate 5000 5) X3rbs X3dbs
      X3di X3d X3root X3dirI 3 (by rfl) (by decide) (by rfl) (by rfl) (by rfl) (by rfl)
      (by rfl) (by decide) (by decide)).2.2 4 fiPtr [(7, 2)]
      [⟨[true, true, true, false, false, false, false, false]⟩] (by decide) (by rfl)
      (by decide) (by rfl) (by rfl) (by decide) (by decide)).2
      (by rw [List.length_replicate]; decide)
      (by decide)
      (by rw [List.length_replicate]; decide)
      (by decide)
      (by rw [List.length_replicate]; decide)
      (by rw [List.length_replicate]; decide)

end Walnut
